import Mathlib

/-!
Verification of the LP_solver repository (Big-M tableau Simplex pipeline).

The development shallowly embeds the Python sources over exact rationals:

* numbers are `ℚ`; the source's float tolerances `1e-10` (pivot decisions)
  and `1e-8` (rank/feasibility decisions) become the exact constants
  `epsQ` and `tolQ`, compared with the same strict/non-strict inequalities
  as in the source;
* numpy arrays become `List ℚ` / `List (List ℚ)`; a matrix that must
  remember its column count even with zero rows (numpy keeps `shape`
  for empty arrays) is the structure `NMat`;
* out-of-range reads are modelled by total getters (`List.getD` with
  default `0`), which agrees with the source wherever the source is
  defined; Python's negative indexing (reached by `solve_simplex` when
  the minimum-ratio scan leaves its sentinel `-1` in place) is modelled
  by `pyIdx`;
* `np.inf` initial values of the ratio scan are modelled by `Option`
  (`none` = infinity), with the comparison semantics of the source spelled
  out in `scanUpd`;
* the unbounded `while True:` loop of `solve_simplex` becomes a
  fuel-indexed recursion `simplexLoop`; `none` means fuel exhaustion.
-/

attribute [local semireducible] Rat.add Rat.sub Rat.mul Rat.inv

/-- Pivot-decision tolerance of `solve_simplex` (source literal `1e-10`). -/
def epsQ : ℚ := 1 / 10 ^ 10

/-- Rank/feasibility tolerance of `feasibility_check` (source default `1e-8`). -/
def tolQ : ℚ := 1 / 10 ^ 8

/-- Total read of a rational list, default 0 (numpy scalar read). -/
def gd (l : List ℚ) (i : Nat) : ℚ := l.getD i 0

/-- Total read of a row of a tableau / matrix, default the empty row. -/
def gdr (T : List (List ℚ)) (i : Nat) : List ℚ := T.getD i []

/-- Total read of entry (i, j) of a tableau / matrix. -/
def gdd (T : List (List ℚ)) (i j : Nat) : ℚ := gd (gdr T i) j

/-- Total read of a list of indices, default 0. -/
def gnat (l : List Nat) (i : Nat) : Nat := l.getD i 0

/-- Last entry of a row: the source's `row[-1]` (RHS column). -/
def rlast (r : List ℚ) : ℚ := gd r (r.length - 1)

/-- Elementwise difference (numpy vector subtraction on equal shapes). -/
def vecSub (a b : List ℚ) : List ℚ := List.zipWith (fun x y => x - y) a b

/-- Elementwise sum (numpy vector addition on equal shapes). -/
def vecAdd (a b : List ℚ) : List ℚ := List.zipWith (fun x y => x + y) a b

/-- Scalar multiple of a vector. -/
def smul (q : ℚ) (l : List ℚ) : List ℚ := l.map (fun x => q * x)

/-- Read a list as a vector of a fixed length n (numpy slice `[:n]`). -/
def padRow (n : Nat) (l : List ℚ) : List ℚ := (List.range n).map (fun j => gd l j)

/-- Sum of squares; `sumSq v ≤ t ^ 2` is the exact form of `norm(v) ≤ t`. -/
def sumSq (l : List ℚ) : ℚ := (l.map (fun x => x * x)).sum

/-- Dot product of two equal-length vectors. -/
def dotQ (a b : List ℚ) : ℚ := (List.zipWith (fun x y => x * y) a b).sum

/-- Python list/array indexing including the negative-index convention:
a negative index counts from the end of a sequence of length `len`. -/
def pyIdx (i : Int) (len : Nat) : Nat :=
  if i < 0 then ((len : Int) + i).toNat else i.toNat

/-- Tableau: row 0 is the objective row, the last column is the RHS. -/
abbrev Tab := List (List ℚ)

/-- Terminal status of the simplex loop (source strings `optimal` and
`unbounded`; the `infeasible` string of the docstring is never returned). -/
inductive SimStatus where
  | optimal
  | unbounded
deriving DecidableEq

/-- Smallest index whose entry is `< -epsQ`: the source's
`np.where(obj_row < -1e-10)[0]` first element, `none` when
`np.all(obj_row >= -1e-10)` (the optimality test). -/
def firstNegIdx : List ℚ → Option Nat
  | [] => none
  | x :: xs => if x < -epsQ then some 0 else (firstNegIdx xs).map (fun k => k + 1)

/-- State of the minimum-ratio scan of `solve_simplex`:
`min_ratio` and `min_basic_var` start at `np.inf` (modelled `none`) and
`leave_row` starts at the sentinel `-1`. -/
structure ScanSt where
  mr : Option ℚ
  leave : Int
  mbv : Option Nat
deriving DecidableEq

/-- Initial scan state (`min_ratio = inf`, `leave_row = -1`,
`min_basic_var = inf`). -/
def scanInit : ScanSt := ⟨none, -1, none⟩

/-- One iteration `i` of the source's ratio loop.  The comparisons with
`np.inf` are: any rational is `< inf - eps`, `abs (x - inf) < eps` is
false, and any index is `< inf`; this is exactly the `Option` match. -/
def scanUpd (cons rhs : List ℚ) (basic : List Nat) (s : ScanSt) (i : Nat) : ScanSt :=
  if epsQ < gd cons i then
    let ratio := gd rhs i / gd cons i
    let cond : Bool :=
      match s.mr with
      | none => true
      | some mr0 =>
          decide (ratio < mr0 - epsQ) ||
          (decide (|ratio - mr0| < epsQ) &&
            (match s.mbv with
             | none => true
             | some v => decide (gnat basic i < v)))
    if cond then ⟨some ratio, (i : Int) + 1, some (gnat basic i)⟩ else s
  else s

/-- The full minimum-ratio scan (source lines 60-73 of `simplex.py`). -/
def scanLeave (cons rhs : List ℚ) (basic : List Nat) : ScanSt :=
  (List.range cons.length).foldl (scanUpd cons rhs basic) scanInit

/-- The row-update loop of the pivot step: every row whose index differs
from `leave_row` gets `row - row[enter_col] * newRow` subtracted
(`leave_row` compared as a Python int, so when it is the sentinel `-1`
every row is updated, including the normalized one). -/
def updateRows (newRow : List ℚ) (e : Nat) (lr : Int) : List (List ℚ) → Nat → List (List ℚ)
  | [], _ => []
  | r :: rs, i =>
      (if (i : Int) = lr then r else vecSub r (smul (gd r e) newRow)) ::
        updateRows newRow e lr rs (i + 1)

/-- The pivot of `solve_simplex`: update `basic_vars[leave_row - 1]`,
normalize `tableau[leave_row]` by the pivot entry, and eliminate the
entering column from every other row.  Row indices go through `pyIdx`
because Python resolves them negatively when `leave_row = -1`. -/
def applyPivot (T : Tab) (basic : List Nat) (e : Nat) (lr : Int) : Tab × List Nat :=
  let basic2 := basic.set (pyIdx (lr - 1) basic.length) e
  let r := pyIdx lr T.length
  let pivot := gdd T r e
  let newRow := (gdr T r).map (fun x => x / pivot)
  (updateRows newRow e lr (T.set r newRow) 0, basic2)

/-- The solution-construction loop of the optimal branch: starting from
`np.zeros(num_original_vars)`, write `tableau[i+1, -1]` into slot
`basic_vars[i]` whenever that index is an original variable. -/
def fillSol (T : Tab) (n0 : Nat) : List Nat → Nat → List ℚ → List ℚ
  | [], _, sol => sol
  | bidx :: rest, i, sol =>
      fillSol T n0 rest (i + 1)
        (if bidx < n0 then sol.set bidx (rlast (gdr T (i + 1))) else sol)

/-- Solution vector extracted on `optimal` termination. -/
def extractSolution (T : Tab) (n0 : Nat) (basic : List Nat) : List ℚ :=
  fillSol T n0 basic 0 (List.replicate n0 0)

/-- Result of one iteration of the `while True:` body of `solve_simplex`:
either a terminal tuple or the next (tableau, basic variables) state. -/
inductive IterOut where
  | done : Tab → SimStatus → Option (List Nat) → Option (List ℚ) → IterOut
  | next : Tab → List Nat → IterOut
deriving DecidableEq

/-- One iteration of `solve_simplex` (source lines 36-84 of `simplex.py`). -/
def iterStep (T : Tab) (basic : List Nat) : IterOut :=
  let m := T.length - 1
  let n := (gdr T 0).length - 1
  let n0 := n - m
  match firstNegIdx (gdr T 0).dropLast with
  | none => IterOut.done T SimStatus.optimal (some basic) (some (extractSolution T n0 basic))
  | some e =>
      let cons := (T.drop 1).map (fun r => gd r e)
      let rhs := (T.drop 1).map rlast
      if cons.all (fun x => decide (x ≤ 0)) then IterOut.done T SimStatus.unbounded none none
      else
        let p := applyPivot T basic e (scanLeave cons rhs basic).leave
        IterOut.next p.1 p.2

/-- Fuel-indexed pivot loop; `none` models running out of fuel, which the
source (an unbounded loop) would spend as further iterations. -/
def simplexLoop : Nat → Tab → List Nat → Option (Tab × SimStatus × Option (List Nat) × Option (List ℚ))
  | 0, _, _ => none
  | fuel + 1, T, basic =>
      match iterStep T basic with
      | IterOut.done T2 s bv sol => some (T2, s, bv, sol)
      | IterOut.next T2 b2 => simplexLoop fuel T2 b2

/-- Initial basic variables of `solve_simplex`:
`list(range(num_original_vars, n))`. -/
def initBasis (T : Tab) : List Nat :=
  let m := T.length - 1
  let n := (gdr T 0).length - 1
  List.range' (n - m) (n - (n - m))

/-- The solver entry point `solve_simplex`, with explicit fuel. -/
def solve_simplex (fuel : Nat) (T : Tab) :
    Option (Tab × SimStatus × Option (List Nat) × Option (List ℚ)) :=
  simplexLoop fuel T (initBasis T)

/-- Status component of a solver result. -/
def resStatus (r : Option (Tab × SimStatus × Option (List Nat) × Option (List ℚ))) :
    Option SimStatus :=
  r.map (fun x => x.2.1)

/-- Objective value read off a solver result: `-final_tableau[0, -1]`. -/
def resObjVal (r : Option (Tab × SimStatus × Option (List Nat) × Option (List ℚ))) :
    Option ℚ :=
  r.map (fun x => -(rlast (gdr x.1 0)))

/-- One guarded pivot step: `some` exactly when the iteration neither
terminates nor falls into the sentinel (`leave_row = -1`) path; it then
performs the same pivot as `iterStep`. -/
def stepPivot (T : Tab) (basic : List Nat) : Option (Tab × List Nat) :=
  match firstNegIdx (gdr T 0).dropLast with
  | none => none
  | some e =>
      let cons := (T.drop 1).map (fun r => gd r e)
      let rhs := (T.drop 1).map rlast
      if cons.all (fun x => decide (x ≤ 0)) then none
      else
        let lr := (scanLeave cons rhs basic).leave
        if lr = -1 then none else some (applyPivot T basic e lr)

/-- Iterated guarded pivots. -/
def pivotIter : Nat → Tab × List Nat → Option (Tab × List Nat)
  | 0, S => some S
  | k + 1, S =>
      match stepPivot S.1 S.2 with
      | none => none
      | some S2 => pivotIter k S2

/-- The degenerate tie tableau of the spec's testable property (and of the
repository test `test_blands`). -/
def blandTableau : Tab :=
  [[-3/4, 20, -1/2, 6, 0, 0, 0, 3],
   [1/4, -8, -1, 9, 1, 0, 0, 0],
   [1/2, -12, -1/2, 3, 0, 1, 0, 0],
   [0, 0, 1, 0, 0, 0, 1, 1]]

/-- Dense numeric matrix carrying its column count explicitly, the way a
numpy array keeps its `shape` even when it has zero rows. -/
structure NMat where
  rows : List (List ℚ)
  ncols : Nat
deriving DecidableEq

/-- Sequential Gram–Schmidt residual of `v` against an orthogonal family
(each step removes the component along one family member). -/
def gsResid (v : List ℚ) (us : List (List ℚ)) : List ℚ :=
  us.foldl (fun r u => vecSub r (smul (dotQ r u / sumSq u) u)) v

/-- Modelled from the spec: `np.linalg.qr` is an external library call, so
the QR-based rank computations are modelled exactly over ℚ.  Vectors are
processed in order; one is kept as independent when the squared norm of
its Gram–Schmidt residual against the previously kept vectors exceeds
`tol ^ 2` (the exact form of the source's `|R[i, i]| > tol` diagonal
test).  Returns the kept orthogonal residuals and the kept indices. -/
def gsKeepAux (tolv : ℚ) : List (List ℚ) → Nat → List (List ℚ) → List (List ℚ) × List Nat
  | [], _, basis => (basis, [])
  | v :: vs, i, basis =>
      let r := gsResid v basis
      if tolv * tolv < sumSq r then
        let rest := gsKeepAux tolv vs (i + 1) (basis ++ [r])
        (rest.1, i :: rest.2)
      else gsKeepAux tolv vs (i + 1) basis

/-- Entry point of the modelled QR rank selection (see `gsKeepAux`). -/
def gsKeep (tolv : ℚ) (vecs : List (List ℚ)) : List (List ℚ) × List Nat :=
  gsKeepAux tolv vecs 0 []

/-- Columns of a matrix. -/
def colsOf (A : NMat) : List (List ℚ) :=
  (List.range A.ncols).map (fun j => A.rows.map (fun r => gd r j))

/-- The column-space feasibility test `check_feasibility` of
`feasibility_check.py`: project `b` onto the span of the independent
columns of `A`; infeasible when `‖b - proj‖ > tol`, tested in the exact
squared form `sumSq (b - proj) > tol ^ 2`. -/
def check_feasibility (A : NMat) (b : List ℚ) (tolv : ℚ) : Bool :=
  let basis := (gsKeep tolv (colsOf A)).1
  let proj := basis.foldl (fun p u => vecAdd p (smul (dotQ b u / sumSq u) u))
    (List.replicate b.length 0)
  !(decide (tolv * tolv < sumSq (vecSub b proj)))

/-- Zero-row test `np.all(np.abs(row) < tol)`. -/
def isZeroRow (tolv : ℚ) (r : List ℚ) : Bool := r.all (fun x => decide (|x| < tolv))

/-- First index whose entry has `|entry| > tol`
(`np.where(np.abs(row_i) > tol)[0]` first element). -/
def firstBigIdx (tolv : ℚ) : List ℚ → Option Nat
  | [] => none
  | x :: xs => if tolv < |x| then some 0 else (firstBigIdx tolv xs).map (fun k => k + 1)

/-- The duplicate-row test of `pre_check_matrix`: compute the ratio at the
first `|entry| > tol` position of `row_i` and verify
`row_j = ratio * row_i` elementwise within `tol` over the `n` columns. -/
def isMultipleOf (tolv : ℚ) (ri rj : List ℚ) (n : Nat) : Bool :=
  match firstBigIdx tolv ri with
  | none => false
  | some k =>
      let ratio := gd rj k / gd ri k
      (List.range n).all (fun j => decide (|gd rj j - ratio * gd ri j| < tolv))

/-- Inner loop of `pre_check_matrix` for a fixed outer position `i` in the
`valid` list: indices of later valid rows detected as multiples of row
`valid[i]` (rows of norm `< tol`, compared in squared form, are skipped as
in the source). -/
def multiplesFor (tolv : ℚ) (A : NMat) (valid : List Nat) (i : Nat) : List Nat :=
  let ri := gdr A.rows (gnat valid i)
  if sumSq ri < tolv * tolv then []
  else
    ((List.range valid.length).drop (i + 1)).filterMap (fun j =>
      let rj := gdr A.rows (gnat valid j)
      if sumSq rj < tolv * tolv then none
      else if isMultipleOf tolv ri rj A.ncols then some (gnat valid j) else none)

/-- Outer loop of `pre_check_matrix` (`for i in range(len(valid_rows)-1)`),
collecting `multiple_rows`. -/
def collectMultiples (tolv : ℚ) (A : NMat) (valid : List Nat) : List Nat :=
  (List.range (valid.length - 1)).foldl (fun acc i => acc ++ multiplesFor tolv A valid i) []

/-- The structural pruning pass `pre_check_matrix` of
`feasibility_check.py`: drop zero rows, then drop later rows that are
scalar multiples of earlier ones; returns the kept row indices. -/
def pre_check_matrix (A : NMat) (tolv : ℚ) : List Nat :=
  let valid := (List.range A.rows.length).filter (fun i => !(isZeroRow tolv (gdr A.rows i)))
  let mult := collectMultiples tolv A valid
  valid.filter (fun i => !(mult.contains i))

/-- The rank pass `qr_rank_check` of `feasibility_check.py`: QR of the
transpose of `A`, i.e. the modelled rank selection applied to the rows of
`A`; returns the indices of the independent rows. -/
def qr_rank_check (A : NMat) (tolv : ℚ) : List Nat :=
  (gsKeep tolv (A.rows.map (fun r => padRow A.ncols r))).2

/-- Row subselection `A[indices]` (keeps the column count, like numpy). -/
def rowSel (A : NMat) (idxs : List Nat) : NMat :=
  ⟨idxs.map (fun i => gdr A.rows i), A.ncols⟩

/-- Vector subselection `b[indices]`. -/
def vecSel (b : List ℚ) (idxs : List Nat) : List ℚ := idxs.map (fun i => gd b i)

/-- The full analyzer `check_and_fix_rank` of `feasibility_check.py`. -/
def check_and_fix_rank (c : List ℚ) (A : NMat) (b : List ℚ) (tolv : ℚ) :
    Bool × List ℚ × NMat × List ℚ :=
  if !(check_feasibility A b tolv) then (false, c, A, b)
  else
    let valid := pre_check_matrix A tolv
    let A1 := if valid.length < A.rows.length then rowSel A valid else A
    let b1 := if valid.length < A.rows.length then vecSel b valid else b
    if A1.rows.length = 0 then (true, c, A1, b1)
    else
      let indep := qr_rank_check A1 tolv
      if indep.length < A1.rows.length then (true, c, rowSel A1 indep, vecSel b1 indep)
      else (true, c, A1, b1)

/-- Big-M construction of one constraint row of the initial tableau:
negated together with its RHS when `b[i] < 0`, artificial coefficient `+1`
in column `n + i`, all other artificial entries `0`. -/
def conRow (A : NMat) (b : List ℚ) (i : Nat) : List ℚ :=
  let n := A.ncols
  let m := A.rows.length
  (if gd b i < 0 then (padRow n (gdr A.rows i)).map (fun x => -x) else padRow n (gdr A.rows i)) ++
    (List.range m).map (fun k => if k = i then (1 : ℚ) else 0) ++
    [if gd b i < 0 then -(gd b i) else gd b i]

/-- Structural part of the objective row of the initial tableau: start from
`c` and, row by row, add `M * A[i]` for negated rows and subtract
`M * A[i]` otherwise (the source's in-place `+=` / `-=` loop). -/
def objStruct (c : List ℚ) (A : NMat) (b : List ℚ) (M : ℚ) : List ℚ :=
  (List.range A.rows.length).foldl
    (fun acc i =>
      if gd b i < 0 then vecAdd acc (smul M (padRow A.ncols (gdr A.rows i)))
      else vecSub acc (smul M (padRow A.ncols (gdr A.rows i))))
    (padRow A.ncols c)

/-- The Big-M tableau builder `initialize_tableau` of
`big_m_initialization.py`: an `(m+1) × (n+m+1)` tableau with the objective
row first, artificial objective entries `0`, and objective RHS
`-sum(M * |b i|)`. -/
def initialize_tableau (c : List ℚ) (A : NMat) (b : List ℚ) (M : ℚ) : Tab :=
  let m := A.rows.length
  (objStruct c A b M ++ (List.range m).map (fun _ => (0 : ℚ)) ++
      [-(((List.range m).map (fun i => M * |gd b i|)).sum)]) ::
    (List.range m).map (conRow A b)

/-- Relational tag of one general-form constraint row. -/
inductive Ineq where
  | le
  | ge
  | eq
deriving DecidableEq

/-- Coefficient of the injected column for one row: `+1` slack for `≤`,
`-1` surplus for `≥`, and (before column removal) `0` for `=`. -/
def tagCoef : Ineq → ℚ
  | Ineq.le => 1
  | Ineq.ge => -1
  | Ineq.eq => 0

/-- The `slack_columns` vector appended to row `i`: length `m`, entry
`tagCoef t` at position `i`, `0` elsewhere. -/
def extRow (m i : Nat) (t : Ineq) : List ℚ :=
  (List.range m).map (fun k => if k = i then tagCoef t else 0)

/-- The row-building loop of `convert_to_standard_form`
(`for i, (row, inequality) in enumerate(zip(A, inequalities))`). -/
def buildRows (m : Nat) : List (List ℚ) → List Ineq → Nat → List (List ℚ)
  | [], _, _ => []
  | _ :: _, [], _ => []
  | r :: rs, t :: ts, i => (r ++ extRow m i t) :: buildRows m rs ts (i + 1)

/-- Indices (from an offset) of the tags satisfying a predicate; used for
`equality_indices` and for the kept appended columns. -/
def idxWhere (p : Ineq → Bool) : List Ineq → Nat → List Nat
  | [], _ => []
  | t :: ts, i => if p t then i :: idxWhere p ts (i + 1) else idxWhere p ts (i + 1)

/-- The converter `convert_to_standard_form` of `standard_form.py`:
negate `c` for maximization, append one slack/surplus column per `≤`/`≥`
row (objective coefficient `0`), and remove the appended columns that
correspond to `=` rows. -/
def convert_to_standard_form (c : List ℚ) (A : List (List ℚ)) (b : List ℚ)
    (tags : List Ineq) (maximize : Bool) : List ℚ × NMat × List ℚ :=
  let c0 := if maximize then c.map (fun x => -x) else c
  let n := c0.length
  let m := tags.length
  let rows1 := buildRows m A tags 0
  let cNew := c0 ++ (tags.filter (fun t => decide (¬ t = Ineq.eq))).map (fun _ => (0 : ℚ))
  let eqIdx := idxWhere (fun t => decide (t = Ineq.eq)) tags 0
  let keep := (List.range (n + m)).filter (fun j => decide (j < n) || !(eqIdx.contains (j - n)))
  let rows2 := if eqIdx.isEmpty then rows1 else rows1.map (fun r => keep.map (fun j => gd r j))
  (cNew, ⟨rows2, n + m - eqIdx.length⟩, b)

/-- Terminal outcome of the pipeline `solve_linear_program` of `main.py`
(file reading and the verification consumer are external I/O; the result
carries exactly what would be handed to them). -/
inductive PipeResult where
  | infeasibleRes
  | fuelOutRes
  | optimalRes (objVal : ℚ) (sol : List ℚ)
  | unboundedRes (objVal : ℚ)
deriving DecidableEq

/-- The pipeline of `main.py` after file reading, parametrized by the
tableau builder and the solver (used to state that an infeasible verdict
stops the pipeline before either is invoked): standardize with all-`=`
tags as `read_and_standardize` does, analyze, and on a feasible verdict
build the tableau and solve. -/
def pipelineWith (builder : List ℚ → NMat → List ℚ → Tab)
    (solver : Tab → Option (Tab × SimStatus × Option (List Nat) × Option (List ℚ)))
    (c : List ℚ) (A : List (List ℚ)) (b : List ℚ) : PipeResult :=
  let std := convert_to_standard_form c A b (List.replicate A.length Ineq.eq) false
  let chk := check_and_fix_rank std.1 std.2.1 std.2.2 tolQ
  if chk.1 = false then PipeResult.infeasibleRes
  else
    match solver (builder chk.2.1 chk.2.2.1 chk.2.2.2) with
    | none => PipeResult.fuelOutRes
    | some (T, SimStatus.optimal, _, sol) => PipeResult.optimalRes (-(rlast (gdr T 0))) (sol.getD [])
    | some (T, SimStatus.unbounded, _, _) => PipeResult.unboundedRes (-(rlast (gdr T 0)))

/-- The concrete pipeline `solve_linear_program` (penalty `M = 1e6`), with
explicit solver fuel. -/
def solve_linear_program (fuel : Nat) (c : List ℚ) (A : List (List ℚ)) (b : List ℚ) :
    PipeResult :=
  pipelineWith (fun c2 A2 b2 => initialize_tableau c2 A2 b2 1000000) (solve_simplex fuel) c A b

/-- Tableau whose entering column 0 has a single positive constraint entry
`5e-11`, inside the gap `(0, 1e-10]` between the unboundedness test
(`<= 0`) and the ratio-scan eligibility test (`> 1e-10`). -/
def tinyColTableau : Tab := [[-1, 0, 0], [1/20000000000, 1, 1]]

/-- Tableau driving the three-iteration Bland-drift scenario of claim C9. -/
def driftTableau : Tab :=
  [[-1, -1, -3, 0, 0, 0, 0, 0],
   [0, 0, 1, 0, 1, 0, 0, 0],
   [0, 1, 1, 0, 0, 1, 0, 9/100000000000],
   [1, 0, 1, 0, 0, 0, 1, 9/50000000000]]

/-- State of `driftTableau` after its first pivot (enter 0, leave row 3). -/
def driftT1 : Tab :=
  [[0, -1, -2, 0, 0, 0, 1, 9/50000000000],
   [0, 0, 1, 0, 1, 0, 0, 0],
   [0, 1, 1, 0, 0, 1, 0, 9/100000000000],
   [1, 0, 1, 0, 0, 0, 1, 9/50000000000]]

/-- State of `driftTableau` after its second pivot (enter 1, leave row 2). -/
def driftT2 : Tab :=
  [[0, 0, -1, 0, 0, 1, 1, 27/100000000000],
   [0, 0, 1, 0, 1, 0, 0, 0],
   [0, 1, 1, 0, 0, 1, 0, 9/100000000000],
   [1, 0, 1, 0, 0, 0, 1, 9/50000000000]]

/-- Entering column of the third iteration on `driftT2`. -/
def driftCons : List ℚ := (driftT2.drop 1).map (fun r => gd r 2)

/-- RHS column of the third iteration on `driftT2`. -/
def driftRhs : List ℚ := (driftT2.drop 1).map rlast

/-- Decidable check of the within-`epsQ` basis invariant of the spec: the
basis list has one entry per constraint row, each basic variable's
objective entry is `0` within `epsQ`, and its tableau column is the
corresponding unit vector within `epsQ`. -/
def basisInvariantEps (T : Tab) (basic : List Nat) : Bool :=
  decide (basic.length = T.length - 1) &&
  (List.range basic.length).all (fun p =>
    decide (|gdd T 0 (gnat basic p)| ≤ epsQ) &&
    (List.range (T.length - 1)).all (fun i =>
      decide (|gdd T (i + 1) (gnat basic p) - (if i = p then 1 else 0)| ≤ epsQ)))

/-- Standard-form input whose first column has only entries `5e-11`:
it passes the full `check_and_fix_rank` analyzer untouched (the rows are
robustly independent), yet its Big-M tableau sends the first pivot into
the sentinel path.  Claim C1's counterexample input. -/
def c1A : NMat := ⟨[[1/20000000000, 1, 0], [1/20000000000, 0, 1]], 3⟩

/-- Big-M tableau (`M = 1e6`) of the claim C1 counterexample input. -/
def c1T0 : Tab := initialize_tableau [-1, 0, 0] c1A [1, 1] 1000000

/-- State of `c1T0` after one pivot iteration: the sentinel `-1` leave-row
resolves through Python's negative indexing, zeroing the last row. -/
def c1T1 : Tab :=
  [[0, -1000000, 20001000000, 0, 20002000000, 20000000000],
   [0, 1, -1, 1, -1, 0],
   [0, 0, 0, 0, 0, 0]]

/-- Ratio `rhs[i] / constraints[i]` of the minimum-ratio test. -/
def ratioAt (cons rhs : List ℚ) (i : Nat) : ℚ := gd rhs i / gd cons i

/-- State of the minimum-ratio scan after its first `k` loop iterations. -/
def scanPre (cons rhs : List ℚ) (basic : List Nat) (k : Nat) : ScanSt :=
  (List.range k).foldl (scanUpd cons rhs basic) scanInit

/-- The exact basis invariant: one basic variable per constraint row, each
pointing at a column strictly left of the RHS whose objective entry is `0`
and whose constraint entries form the corresponding unit vector.  Over
exact rationals the invariant is preserved exactly, which implies the
spec's within-`epsQ` form. -/
def TabInv (T : Tab) (basic : List Nat) : Prop :=
  T.length = basic.length + 1 ∧
  (∀ r ∈ T, r.length = (gdr T 0).length) ∧
  (∀ p, p < basic.length →
    gnat basic p + 1 < (gdr T 0).length ∧
    gdd T 0 (gnat basic p) = 0 ∧
    (∀ i, i < basic.length → gdd T (i + 1) (gnat basic p) = if i = p then 1 else 0))

/-- The exact basis invariant is decidable, so concrete instances can be
checked by evaluation. -/
instance tabInvDecidable (T : Tab) (basic : List Nat) : Decidable (TabInv T basic) := by
  unfold TabInv
  infer_instance

/-- Indices of the non-equality rows, in order: one appended (and kept)
slack/surplus column per such row. -/
def nonEqIdx (tags : List Ineq) : List Nat :=
  idxWhere (fun t => decide (¬ t = Ineq.eq)) tags 0

/-- The spec sentence of section "standard form" as a predicate on one
input (spec side of the refinement, to be compared with the embedded
`convert_to_standard_form`): writing `(c2, A2, b2)` for the output,
`n` for the variable count and `nne` for the number of `≤`/`≥` rows,
the spec demands: `b` passes through unchanged; `c2` and `A2` have
`n + nne` columns; every row keeps its original coefficients in the
first `n` columns; the first `n` entries of `c2` are `c` negated exactly
when maximizing; every appended column has objective coefficient `0`;
the `q`-th appended column is the unit vector of the `q`-th non-equality
row scaled by `+1` for `≤` and `-1` for `≥` (`tagCoef`); and appended
columns exist only for non-equality rows. -/
def convertSpecClaim (c : List ℚ) (A : List (List ℚ)) (b : List ℚ)
    (tags : List Ineq) (maximize : Bool) : Prop :=
  let n := c.length
  let nne := (tags.filter (fun t => decide (t = Ineq.le))).length +
    (tags.filter (fun t => decide (t = Ineq.ge))).length
  let out := convert_to_standard_form c A b tags maximize
  out.2.2 = b ∧
  out.1.length = n + nne ∧
  out.2.1.ncols = n + nne ∧
  out.2.1.rows.length = A.length ∧
  (∀ r, r < A.length → (gdr out.2.1.rows r).length = n + nne) ∧
  (∀ j, j < n → gd out.1 j = if maximize then -(gd c j) else gd c j) ∧
  (∀ r, r < A.length → ∀ j, j < n → gdd out.2.1.rows r j = gdd A r j) ∧
  (∀ q, q < nne → gd out.1 (n + q) = 0) ∧
  (∀ q, q < nne → ∀ r, r < A.length →
    gdd out.2.1.rows r (n + q) =
      if gnat (nonEqIdx tags) q = r then tagCoef (tags.getD r Ineq.eq) else 0) ∧
  (∀ q, q < nne → gnat (nonEqIdx tags) q < tags.length ∧
    ¬ tags.getD (gnat (nonEqIdx tags) q) Ineq.eq = Ineq.eq)

/-- Claim C9 counterexample: in the third iteration of a `solve_simplex`
run started on `driftTableau` (basic variables have become `[4, 1, 0]`),
the entering column is 2, every constraint row is eligible with ratios
`0`, `0.9e-10`, `1.8e-10`, and the incremental tie handling drifts: the
scan selects row 3, whose ratio exceeds the true minimum ratio `0` (taken
at row 1) by MORE than the tie tolerance `epsQ` — so the selected row
neither achieves the minimum ratio nor is within `epsQ` of it. -/
theorem claim9_counterexample :
    iterStep driftTableau (initBasis driftTableau) = IterOut.next driftT1 [4, 5, 0] ∧
    iterStep driftT1 [4, 5, 0] = IterOut.next driftT2 [4, 1, 0] ∧
    firstNegIdx (gdr driftT2 0).dropLast = some 2 ∧
    (scanLeave driftCons driftRhs [4, 1, 0]).leave = 3 ∧
    epsQ < gd driftCons 0 ∧ gd driftRhs 0 / gd driftCons 0 = 0 ∧
    epsQ < gd driftCons 2 ∧
    epsQ < gd driftRhs 2 / gd driftCons 2 - gd driftRhs 0 / gd driftCons 0 := by
  refine ⟨by decide, by decide, by decide, by decide, by decide, by decide, by decide, by decide⟩

/-- Claim C2 counterexample: on the degenerate 4×8 tableau the pivot loop
does terminate (6 pivots, fuel 10 suffices) with status `optimal`, but the
final objective value `-final_tableau[0, -1]` is `-17/4`, which is NOT
strictly greater than `-3` as the claim states. -/
theorem claim2_counterexample :
    resStatus (solve_simplex 10 blandTableau) = some SimStatus.optimal ∧
    resObjVal (solve_simplex 10 blandTableau) = some (-17/4 : ℚ) ∧
    ¬ ((-17/4 : ℚ) > -3) := by
  refine ⟨by decide, by decide, by decide⟩

/-- Claim C2, amended: on the degenerate 4×8 tableau the pivot loop
terminates after finitely many iterations with status `optimal`, and the
final objective value is `-17/4`: strictly LESS than `-3`, and in
particular different from `-3` (which is what the repository's own test
`test_blands` asserts). -/
theorem claim2_bland_run :
    resStatus (solve_simplex 10 blandTableau) = some SimStatus.optimal ∧
    resObjVal (solve_simplex 10 blandTableau) = some (-17/4 : ℚ) ∧
    ((-17/4 : ℚ) < -3 ∧ ((-17/4 : ℚ) ≠ -3)) := by
  refine ⟨by decide, by decide, by decide, by decide⟩

/-- Claim C6: whenever an iteration of the pivot loop has an entering
column `e` whose constraint-row entries are all `≤ 0`, the loop returns
the current tableau with status `unbounded` and with BOTH the basis list
and the solution vector absent (`none`, not zero and not partial). -/
theorem claim6_unbounded_result (fuel : Nat) (T : Tab) (basic : List Nat) (e : Nat)
    (h1 : firstNegIdx (gdr T 0).dropLast = some e)
    (h2 : ((T.drop 1).map (fun r => gd r e)).all (fun x => decide (x ≤ 0)) = true) :
    simplexLoop (fuel + 1) T basic = some (T, SimStatus.unbounded, none, none) := by
  unfold simplexLoop iterStep
  rw [h1]
  simp only [h2, if_true]

/-- Claim C6 witness: a concrete unbounded iteration (enter column 0, the
only constraint entry is negative). -/
theorem claim6_unbounded_result_witness :
    simplexLoop 1 [[-1, 0], [-1, 1]] [0] =
      some ([[-1, 0], [-1, 1]], SimStatus.unbounded, none, none) :=
  claim6_unbounded_result 0 [[-1, 0], [-1, 1]] [0] 0 (by decide) (by decide)

/-- Claim C10 counterexample: on `tinyColTableau` the unboundedness test
fails (the entering column has a strictly positive entry), yet the
minimum-ratio loop accepts no row and leaves the sentinel `leave_row = -1`
in place — contradicting the claim that a valid leaving row (`≥ 1`) is
always selected when the unboundedness test fails. -/
theorem claim10_counterexample :
    firstNegIdx (gdr tinyColTableau 0).dropLast = some 0 ∧
    ((tinyColTableau.drop 1).map (fun r => gd r 0)).all (fun x => decide (x ≤ 0)) = false ∧
    0 < gdd tinyColTableau 1 0 ∧ gdd tinyColTableau 1 0 ≤ epsQ ∧
    (scanLeave ((tinyColTableau.drop 1).map (fun r => gd r 0))
        ((tinyColTableau.drop 1).map rlast) (initBasis tinyColTableau)).leave = -1 := by
  refine ⟨by decide, by decide, by decide, by decide, by decide⟩

/-- Claim C7 (code divergence at the failing input): scaling the single
constraint row of `c = [1]`, `A = [[2e-8]]`, `b = [2e-8]` by the positive
scalar `k = 1/4` keeps the feasibility verdict (both runs end `optimal`)
but changes the final objective value: the pipeline returns `1/50` on the
original problem and `0` on the scaled one — the scaled row falls below
the `1e-8` pruning tolerance and the constraint is silently dropped. -/
theorem claim7_scaling_divergence :
    solve_linear_program 10 [1] [[2/100000000]] [2/100000000] =
      PipeResult.optimalRes (1/50) [0] ∧
    (1/4 : ℚ) * (2/100000000) = 1/200000000 ∧ (0 : ℚ) < 1/4 ∧
    solve_linear_program 10 [1] [[1/200000000]] [1/200000000] =
      PipeResult.optimalRes 0 [0] ∧
    (1/50 : ℚ) ≠ 0 := by
  refine ⟨by decide, by decide, by decide, by decide, by decide⟩

/-- Claim C1 counterexample: the input `c1A` passes the feasibility
analyzer completely unchanged, so its Big-M tableau is a tableau the
solver accepts, with the invariant holding initially; after ONE pivot
iteration the within-`epsQ` basis invariant is violated (the iteration
falls into the sentinel `leave_row = -1` path, which updates
`basic_vars[-2]` and zeroes the last row). -/
theorem claim1_counterexample :
    check_and_fix_rank [-1, 0, 0] c1A [1, 1] tolQ = (true, [-1, 0, 0], c1A, [1, 1]) ∧
    basisInvariantEps c1T0 (initBasis c1T0) = true ∧
    iterStep c1T0 (initBasis c1T0) = IterOut.next c1T1 [0, 4] ∧
    basisInvariantEps c1T1 [0, 4] = false := by
  refine ⟨by decide, by decide, by decide, by decide⟩

/-- Claim C4: whenever the column-space test reports `b` outside the
column space of `A` (at tolerance `tolQ`), `check_and_fix_rank` returns
`feasible = false` with `c`, `A`, `b` completely unchanged, and the
pipeline returns the infeasible verdict whatever tableau builder and
solver it is run with — i.e. it stops before either is invoked. -/
theorem claim4_infeasible_stops :
    (∀ (c : List ℚ) (A : NMat) (b : List ℚ),
      check_feasibility A b tolQ = false →
      check_and_fix_rank c A b tolQ = (false, c, A, b)) ∧
    (∀ (c : List ℚ) (A : List (List ℚ)) (b : List ℚ)
      (builder : List ℚ → NMat → List ℚ → Tab)
      (solver : Tab → Option (Tab × SimStatus × Option (List Nat) × Option (List ℚ))),
      check_feasibility
          (convert_to_standard_form c A b (List.replicate A.length Ineq.eq) false).2.1
          (convert_to_standard_form c A b (List.replicate A.length Ineq.eq) false).2.2 tolQ =
        false →
      pipelineWith builder solver c A b = PipeResult.infeasibleRes) := by
  constructor
  · intro c A b h
    unfold check_and_fix_rank
    simp [h]
  · intro c A b builder solver h
    unfold pipelineWith
    have hfix : check_and_fix_rank
        (convert_to_standard_form c A b (List.replicate A.length Ineq.eq) false).1
        (convert_to_standard_form c A b (List.replicate A.length Ineq.eq) false).2.1
        (convert_to_standard_form c A b (List.replicate A.length Ineq.eq) false).2.2 tolQ =
        (false, (convert_to_standard_form c A b (List.replicate A.length Ineq.eq) false).1,
          (convert_to_standard_form c A b (List.replicate A.length Ineq.eq) false).2.1,
          (convert_to_standard_form c A b (List.replicate A.length Ineq.eq) false).2.2) := by
      unfold check_and_fix_rank
      simp [h]
    simp [hfix]

/-- Claim C4 witness: the spec's infeasible-detection scenario
`A = [[1, 1], [1, 1]]`, `b = [1, 2]`. -/
theorem claim4_infeasible_stops_witness :
    check_feasibility ⟨[[1, 1], [1, 1]], 2⟩ [1, 2] tolQ = false ∧
    check_and_fix_rank [1, 1] ⟨[[1, 1], [1, 1]], 2⟩ [1, 2] tolQ =
      (false, [1, 1], ⟨[[1, 1], [1, 1]], 2⟩, [1, 2]) ∧
    pipelineWith (fun c2 A2 b2 => initialize_tableau c2 A2 b2 1000000) (solve_simplex 5)
        [1, 1] [[1, 1], [1, 1]] [1, 2] = PipeResult.infeasibleRes :=
  ⟨by decide, claim4_infeasible_stops.1 [1, 1] ⟨[[1, 1], [1, 1]], 2⟩ [1, 2] (by decide),
    claim4_infeasible_stops.2 [1, 1] [[1, 1], [1, 1]] [1, 2]
      (fun c2 A2 b2 => initialize_tableau c2 A2 b2 1000000) (solve_simplex 5) (by decide)⟩

/-- Reading past the end of a mapped row list gives the image default. -/
theorem gd_map_rows (f : List ℚ → ℚ) (hf : f [] = 0) (L : List (List ℚ)) (i : Nat) :
    gd (L.map f) i = f (L.getD i []) := by
  induction L generalizing i with
  | nil => simp [gd, hf]
  | cons r rs ih =>
      cases i with
      | zero => simp [gd]
      | succ k => simpa [gd, List.getD_cons_succ] using ih k

/-- Dropping the first row shifts row reads by one. -/
theorem getD_drop_one (T : Tab) (i : Nat) : (T.drop 1).getD i [] = gdr T (i + 1) := by
  cases T <;> simp [gdr]

/-- Entry `i` of the entering column equals tableau entry `(i+1, e)`. -/
theorem gd_consCol (T : Tab) (e i : Nat) :
    gd ((T.drop 1).map (fun r => gd r e)) i = gdd T (i + 1) e := by
  rw [gd_map_rows (fun r => gd r e) (by simp [gd]) _ i, getD_drop_one]
  rfl

/-- Entry `i` of the RHS column equals the last entry of row `i + 1`. -/
theorem gd_rhsCol (T : Tab) (i : Nat) :
    gd ((T.drop 1).map rlast) i = rlast (gdr T (i + 1)) := by
  rw [gd_map_rows rlast (by simp [rlast, gd]) _ i, getD_drop_one]

/-- The scan state after `k + 1` iterations is one update applied to the
state after `k`. -/
theorem scanPre_succ (cons rhs : List ℚ) (basic : List Nat) (k : Nat) :
    scanPre cons rhs basic (k + 1) =
      scanUpd cons rhs basic (scanPre cons rhs basic k) k := by
  unfold scanPre
  rw [List.range_succ, List.foldl_append]
  rfl

/-- The full scan is the prefix scan of the whole range. -/
theorem scanLeave_eq_pre (cons rhs : List ℚ) (basic : List Nat) :
    scanLeave cons rhs basic = scanPre cons rhs basic cons.length := rfl

/-- One scan update either leaves the state unchanged or moves to the
freshly updated triple for an eligible row. -/
theorem scanUpd_cases (cons rhs : List ℚ) (basic : List Nat) (s : ScanSt) (i : Nat) :
    scanUpd cons rhs basic s i = s ∨
    (epsQ < gd cons i ∧
      scanUpd cons rhs basic s i =
        ⟨some (ratioAt cons rhs i), (i : Int) + 1, some (gnat basic i)⟩) := by
  by_cases hel : epsQ < gd cons i
  · simp only [scanUpd, if_pos hel]
    split
    · right; exact ⟨hel, rfl⟩
    · left; rfl
  · simp only [scanUpd, if_neg hel]
    left; trivial

/-- On an eligible row the update always fires from the initial state
(`min_ratio = inf` makes the first condition true). -/
theorem scanUpd_init (cons rhs : List ℚ) (basic : List Nat) (i : Nat)
    (hel : epsQ < gd cons i) :
    scanUpd cons rhs basic scanInit i =
      ⟨some (ratioAt cons rhs i), (i : Int) + 1, some (gnat basic i)⟩ := by
  simp only [scanUpd, scanInit, if_pos hel]
  rfl

/-- An ineligible row never changes the scan state. -/
theorem scanUpd_not_elig (cons rhs : List ℚ) (basic : List Nat) (s : ScanSt) (i : Nat)
    (h : ¬ epsQ < gd cons i) : scanUpd cons rhs basic s i = s := by
  simp [scanUpd, h]

/-- Validity invariant of the scan: either nothing fired yet (state still
initial, no eligible row seen) or the current `leave_row` points one past
an eligible row index. -/
theorem scanPre_valid (cons rhs : List ℚ) (basic : List Nat) (k : Nat) :
    (scanPre cons rhs basic k = scanInit ∧ ∀ i, i < k → ¬ epsQ < gd cons i) ∨
    (∃ i0, i0 < k ∧ epsQ < gd cons i0 ∧
      (scanPre cons rhs basic k).leave = (i0 : Int) + 1) := by
  induction k with
  | zero =>
      left
      exact ⟨rfl, by omega⟩
  | succ k ih =>
      rw [scanPre_succ]
      rcases ih with ⟨hs, hall⟩ | ⟨i0, hi0, hel0, hlv⟩
      · by_cases hel : epsQ < gd cons k
        · rw [hs, scanUpd_init cons rhs basic k hel]
          right
          exact ⟨k, by omega, hel, rfl⟩
        · rw [hs, scanUpd_not_elig cons rhs basic scanInit k hel]
          left
          refine ⟨rfl, fun i hi => ?_⟩
          rcases Nat.lt_succ_iff_lt_or_eq.mp hi with h | h
          · exact hall i h
          · subst h; exact hel
      · rcases scanUpd_cases cons rhs basic (scanPre cons rhs basic k) k with heq | ⟨hel, heq⟩
        · rw [heq]
          right
          exact ⟨i0, by omega, hel0, hlv⟩
        · rw [heq]
          right
          exact ⟨k, by omega, hel, rfl⟩

/-- Claim C10, amended: whenever the entering column has an entry
STRICTLY ABOVE the ratio-eligibility threshold `epsQ = 1e-10` (rather
than merely strictly positive, which the counterexample shows is not
enough), the minimum-ratio loop selects a valid leaving row — the
sentinel is overwritten with some `i0 + 1 ≥ 1` pointing at an eligible
row — and the subsequent pivot divides by that row's entry in the
entering column, which is strictly positive (indeed `> epsQ`), so the
pivot normalization never divides by zero. -/
theorem claim10_leave_row_valid (T : Tab) (basic : List Nat) (e : Nat)
    (hpos : ∃ i, i < T.length - 1 ∧ epsQ < gdd T (i + 1) e) :
    ∃ i0, i0 < T.length - 1 ∧
      (scanLeave ((T.drop 1).map (fun r => gd r e)) ((T.drop 1).map rlast) basic).leave
        = (i0 : Int) + 1 ∧
      epsQ < gdd T (i0 + 1) e ∧
      0 < gdd T
        (pyIdx ((scanLeave ((T.drop 1).map (fun r => gd r e))
          ((T.drop 1).map rlast) basic).leave) T.length) e := by
  obtain ⟨i, hi, hel⟩ := hpos
  have hlen : ((T.drop 1).map (fun r => gd r e)).length = T.length - 1 := by
    simp
  rcases scanPre_valid ((T.drop 1).map (fun r => gd r e)) ((T.drop 1).map rlast) basic
      ((T.drop 1).map (fun r => gd r e)).length with ⟨_, hall⟩ | ⟨i0, hi0, hel0, hlv⟩
  · exfalso
    refine hall i (by omega) ?_
    rw [gd_consCol]
    exact hel
  · rw [← scanLeave_eq_pre] at hlv
    rw [hlen] at hi0
    have hel0' : epsQ < gdd T (i0 + 1) e := by
      rw [← gd_consCol T e i0]
      exact hel0
    refine ⟨i0, hi0, hlv, hel0', ?_⟩
    rw [hlv]
    have hpy : pyIdx ((i0 : Int) + 1) T.length = i0 + 1 := by
      unfold pyIdx
      rw [if_neg (by omega)]
      omega
    rw [hpy]
    have : (0 : ℚ) < epsQ := by decide
    linarith

/-- Claim C10 amended witness: a concrete one-row tableau whose entering
column entry is `1 > epsQ`. -/
theorem claim10_leave_row_valid_witness :
    ∃ i0, i0 < ([[(-1 : ℚ), 0], [1, 1]] : Tab).length - 1 ∧
      (scanLeave ((([[(-1 : ℚ), 0], [1, 1]] : Tab).drop 1).map (fun r => gd r 0))
          ((([[(-1 : ℚ), 0], [1, 1]] : Tab).drop 1).map rlast) [1]).leave = (i0 : Int) + 1 ∧
      epsQ < gdd ([[(-1 : ℚ), 0], [1, 1]] : Tab) (i0 + 1) 0 ∧
      0 < gdd ([[(-1 : ℚ), 0], [1, 1]] : Tab)
        (pyIdx ((scanLeave ((([[(-1 : ℚ), 0], [1, 1]] : Tab).drop 1).map (fun r => gd r 0))
          ((([[(-1 : ℚ), 0], [1, 1]] : Tab).drop 1).map rlast) [1]).leave)
          ([[(-1 : ℚ), 0], [1, 1]] : Tab).length) 0 :=
  claim10_leave_row_valid [[(-1 : ℚ), 0], [1, 1]] [1] 0 ⟨0, by decide, by decide⟩

/-- Full characterization of one scan update on a populated state: the
incumbent is replaced exactly when the new ratio is below
`min_ratio - epsQ`, or within `epsQ` of `min_ratio` with a smaller basic
variable. -/
theorem scanUpd_some (cons rhs : List ℚ) (basic : List Nat) (r0 : ℚ) (lv : Int) (bv0 : Nat)
    (i : Nat) (hel : epsQ < gd cons i) :
    scanUpd cons rhs basic ⟨some r0, lv, some bv0⟩ i =
      if ratioAt cons rhs i < r0 - epsQ ∨
          (|ratioAt cons rhs i - r0| < epsQ ∧ gnat basic i < bv0)
      then ⟨some (ratioAt cons rhs i), (i : Int) + 1, some (gnat basic i)⟩
      else ⟨some r0, lv, some bv0⟩ := by
  simp only [scanUpd, if_pos hel, ratioAt]
  by_cases h : gd rhs i / gd cons i < r0 - epsQ ∨
      (|gd rhs i / gd cons i - r0| < epsQ ∧ gnat basic i < bv0)
  · rw [if_pos h]
    have hb : (decide (gd rhs i / gd cons i < r0 - epsQ) ||
        (decide (|gd rhs i / gd cons i - r0| < epsQ) && decide (gnat basic i < bv0))) = true := by
      rcases h with h | ⟨h1, h2⟩
      · simp [h]
      · simp [h1, h2]
    simp [hb]
  · rw [if_neg h]
    push_neg at h
    obtain ⟨h1, h2⟩ := h
    have hb : (decide (gd rhs i / gd cons i < r0 - epsQ) ||
        (decide (|gd rhs i / gd cons i - r0| < epsQ) && decide (gnat basic i < bv0))) = false := by
      by_cases h3 : |gd rhs i / gd cons i - r0| < epsQ
      · simp [h1, h3, h2 h3]
      · simp [h1, h3]
    simp [hb]

/-- Minimum-tracking invariant of the scan under the separation hypothesis
(any two eligible ratios are either exactly equal or more than `epsQ`
apart): after `k` iterations the state is still initial with no eligible
row seen, or it holds an eligible row `i0` achieving the minimum ratio
over the eligible prefix, with the smallest basic variable among the
prefix rows attaining that ratio. -/
theorem scanPre_min (cons rhs : List ℚ) (basic : List Nat)
    (hsep : ∀ i j, i < cons.length → j < cons.length → epsQ < gd cons i → epsQ < gd cons j →
      ratioAt cons rhs i = ratioAt cons rhs j ∨
        epsQ < |ratioAt cons rhs i - ratioAt cons rhs j|) :
    ∀ k, k ≤ cons.length →
    (scanPre cons rhs basic k = scanInit ∧ ∀ i, i < k → ¬ epsQ < gd cons i) ∨
    (∃ i0, i0 < k ∧ epsQ < gd cons i0 ∧
      scanPre cons rhs basic k =
        ⟨some (ratioAt cons rhs i0), (i0 : Int) + 1, some (gnat basic i0)⟩ ∧
      (∀ i, i < k → epsQ < gd cons i → ratioAt cons rhs i0 ≤ ratioAt cons rhs i) ∧
      (∀ i, i < k → epsQ < gd cons i → ratioAt cons rhs i = ratioAt cons rhs i0 →
        gnat basic i0 ≤ gnat basic i)) := by
  intro k
  induction k with
  | zero => intro _; left; exact ⟨rfl, by omega⟩
  | succ k ih =>
      intro hk1
      have hklt : k < cons.length := by omega
      have heps : (0 : ℚ) < epsQ := by decide
      rw [scanPre_succ]
      rcases ih (by omega) with ⟨hs, hall⟩ | ⟨i0, hi0, hel0, hst, hmin, htie⟩
      · by_cases hel : epsQ < gd cons k
        · rw [hs, scanUpd_init cons rhs basic k hel]
          right
          refine ⟨k, by omega, hel, rfl, ?_, ?_⟩
          · intro i hi hie
            rcases Nat.lt_succ_iff_lt_or_eq.mp hi with h | h
            · exact absurd hie (hall i h)
            · subst h; exact le_refl _
          · intro i hi hie _
            rcases Nat.lt_succ_iff_lt_or_eq.mp hi with h | h
            · exact absurd hie (hall i h)
            · subst h; exact le_refl _
        · rw [hs, scanUpd_not_elig cons rhs basic scanInit k hel]
          left
          refine ⟨rfl, fun i hi => ?_⟩
          rcases Nat.lt_succ_iff_lt_or_eq.mp hi with h | h
          · exact hall i h
          · subst h; exact hel
      · by_cases hel : epsQ < gd cons k
        · rw [hst, scanUpd_some cons rhs basic _ _ _ k hel]
          rcases hsep i0 k (by omega) hklt hel0 hel with heq | hgap
          · have hnlt : ¬ ratioAt cons rhs k < ratioAt cons rhs i0 - epsQ := by
              rw [← heq] at *
              intro hc
              rw [← heq] at hc
              linarith
            have habs : |ratioAt cons rhs k - ratioAt cons rhs i0| < epsQ := by
              rw [heq]
              simpa using heps
            by_cases hb : gnat basic k < gnat basic i0
            · rw [if_pos (Or.inr ⟨habs, hb⟩)]
              right
              refine ⟨k, by omega, hel, rfl, ?_, ?_⟩
              · intro i hi hie
                rcases Nat.lt_succ_iff_lt_or_eq.mp hi with h | h
                · have := hmin i h hie
                  linarith [heq.le, heq.ge]
                · subst h; exact le_refl _
              · intro i hi hie hri
                rcases Nat.lt_succ_iff_lt_or_eq.mp hi with h | h
                · have hri0 : ratioAt cons rhs i = ratioAt cons rhs i0 := by rw [hri, ← heq]
                  have := htie i h hie hri0
                  omega
                · subst h; exact le_refl _
            · rw [if_neg (by rintro (hc | ⟨_, hc2⟩); exact hnlt hc; exact hb hc2)]
              right
              refine ⟨i0, by omega, hel0, rfl, ?_, ?_⟩
              · intro i hi hie
                rcases Nat.lt_succ_iff_lt_or_eq.mp hi with h | h
                · exact hmin i h hie
                · subst h; exact heq.le
              · intro i hi hie hri
                rcases Nat.lt_succ_iff_lt_or_eq.mp hi with h | h
                · exact htie i h hie hri
                · subst h; omega
          · by_cases hlt : ratioAt cons rhs k < ratioAt cons rhs i0
            · have h1 : ratioAt cons rhs k < ratioAt cons rhs i0 - epsQ := by
                have habs : |ratioAt cons rhs i0 - ratioAt cons rhs k| =
                    ratioAt cons rhs i0 - ratioAt cons rhs k := abs_of_pos (by linarith)
                rw [habs] at hgap
                linarith
              rw [if_pos (Or.inl h1)]
              right
              refine ⟨k, by omega, hel, rfl, ?_, ?_⟩
              · intro i hi hie
                rcases Nat.lt_succ_iff_lt_or_eq.mp hi with h | h
                · have := hmin i h hie
                  linarith
                · subst h; exact le_refl _
              · intro i hi hie hri
                rcases Nat.lt_succ_iff_lt_or_eq.mp hi with h | h
                · exfalso
                  have := hmin i h hie
                  rw [hri] at this
                  linarith
                · subst h; exact le_refl _
            · have hne : ratioAt cons rhs i0 ≠ ratioAt cons rhs k := by
                intro hcc
                rw [hcc] at hgap
                simp at hgap
                linarith
              have hlt2 : ratioAt cons rhs i0 < ratioAt cons rhs k :=
                lt_of_le_of_ne (not_lt.mp hlt) hne
              have hc1 : ¬ ratioAt cons rhs k < ratioAt cons rhs i0 - epsQ := by
                intro hc
                linarith
              have hc2 : ¬ |ratioAt cons rhs k - ratioAt cons rhs i0| < epsQ := by
                rw [abs_sub_comm]
                exact not_lt.mpr (le_of_lt hgap)
              rw [if_neg (by rintro (hc | ⟨hc, _⟩); exact hc1 hc; exact hc2 hc)]
              right
              refine ⟨i0, by omega, hel0, rfl, ?_, ?_⟩
              · intro i hi hie
                rcases Nat.lt_succ_iff_lt_or_eq.mp hi with h | h
                · exact hmin i h hie
                · subst h; exact le_of_lt hlt2
              · intro i hi hie hri
                rcases Nat.lt_succ_iff_lt_or_eq.mp hi with h | h
                · exact htie i h hie hri
                · subst h; exact absurd hri.symm hne
        · rw [hst, scanUpd_not_elig cons rhs basic _ k hel]
          right
          refine ⟨i0, by omega, hel0, rfl, ?_, ?_⟩
          · intro i hi hie
            rcases Nat.lt_succ_iff_lt_or_eq.mp hi with h | h
            · exact hmin i h hie
            · subst h; exact absurd hie hel
          · intro i hi hie hri
            rcases Nat.lt_succ_iff_lt_or_eq.mp hi with h | h
            · exact htie i h hie hri
            · subst h; exact absurd hie hel

/-- Characterization of the entering-column choice: `firstNegIdx` returns
an in-range index whose entry is `< -epsQ` while every earlier entry is
not. -/
theorem firstNegIdx_spec (l : List ℚ) (e : Nat) (h : firstNegIdx l = some e) :
    e < l.length ∧ gd l e < -epsQ ∧ ∀ j, j < e → ¬ gd l j < -epsQ := by
  induction l generalizing e with
  | nil => simp [firstNegIdx] at h
  | cons x xs ih =>
      by_cases hx : x < -epsQ
      · unfold firstNegIdx at h
        rw [if_pos hx] at h
        injection h with h2
        subst h2
        exact ⟨by simp, by simpa [gd] using hx, fun j hj => absurd hj (by omega)⟩
      · unfold firstNegIdx at h
        rw [if_neg hx] at h
        rcases Option.map_eq_some'.mp h with ⟨k, hk, rfl⟩
        obtain ⟨h1, h2, h3⟩ := ih k hk
        refine ⟨by simpa using h1, by simpa [gd, List.getD_cons_succ] using h2, ?_⟩
        intro j hj
        cases j with
        | zero => simpa [gd] using hx
        | succ j2 => simpa [gd, List.getD_cons_succ] using h3 j2 (by omega)

/-- Claim C9, amended: the entering rule is exactly as claimed (smallest
column index with objective entry `< -epsQ`); the leaving rule is as
claimed PROVIDED the eligible ratios are separated — any two are either
exactly equal or more than `epsQ` apart (the counterexample shows that
with near-ties inside `(0, epsQ]` the incremental scan can drift away
from the minimum): then the scan selects an eligible row achieving the
minimum ratio, with the smallest current basic-variable index among the
eligible rows attaining that ratio. -/
theorem claim9_blands_rule :
    (∀ (T : Tab) (e : Nat), firstNegIdx (gdr T 0).dropLast = some e →
      e < (gdr T 0).dropLast.length ∧ gd (gdr T 0).dropLast e < -epsQ ∧
      (∀ j, j < e → ¬ gd (gdr T 0).dropLast j < -epsQ)) ∧
    (∀ (cons rhs : List ℚ) (basic : List Nat),
      (∃ i, i < cons.length ∧ epsQ < gd cons i) →
      (∀ i j, i < cons.length → j < cons.length → epsQ < gd cons i → epsQ < gd cons j →
        ratioAt cons rhs i = ratioAt cons rhs j ∨
          epsQ < |ratioAt cons rhs i - ratioAt cons rhs j|) →
      ∃ i0, i0 < cons.length ∧ epsQ < gd cons i0 ∧
        (scanLeave cons rhs basic).leave = (i0 : Int) + 1 ∧
        (∀ i, i < cons.length → epsQ < gd cons i →
          ratioAt cons rhs i0 ≤ ratioAt cons rhs i) ∧
        (∀ i, i < cons.length → epsQ < gd cons i →
          ratioAt cons rhs i = ratioAt cons rhs i0 → gnat basic i0 ≤ gnat basic i)) := by
  constructor
  · intro T e h
    exact firstNegIdx_spec _ _ h
  · rintro cons rhs basic ⟨i, hi, hel⟩ hsep
    rcases scanPre_min cons rhs basic hsep cons.length (le_refl _) with
      ⟨_, hall⟩ | ⟨i0, hi0, hel0, hst, hmin, htie⟩
    · exact absurd hel (hall i hi)
    · refine ⟨i0, hi0, hel0, ?_, hmin, htie⟩
      rw [scanLeave_eq_pre, hst]

/-- Claim C9 amended witness: two eligible rows with ratios `1` and `1/2`
(separated by more than `epsQ`); the scan must settle on row index 1. -/
theorem claim9_blands_rule_witness :
    ∃ i0, i0 < ([1, 2] : List ℚ).length ∧ epsQ < gd [1, 2] i0 ∧
      (scanLeave [1, 2] [1, 1] [5, 3]).leave = (i0 : Int) + 1 ∧
      (∀ i, i < ([1, 2] : List ℚ).length → epsQ < gd [1, 2] i →
        ratioAt [1, 2] [1, 1] i0 ≤ ratioAt [1, 2] [1, 1] i) ∧
      (∀ i, i < ([1, 2] : List ℚ).length → epsQ < gd [1, 2] i →
        ratioAt [1, 2] [1, 1] i = ratioAt [1, 2] [1, 1] i0 →
        gnat [5, 3] i0 ≤ gnat [5, 3] i) :=
  claim9_blands_rule.2 [1, 2] [1, 1] [5, 3] ⟨0, by decide, by decide⟩
    (by
      intro i j hi hj
      have hi2 : i < 2 := by simpa using hi
      have hj2 : j < 2 := by simpa using hj
      interval_cases i <;> interval_cases j <;> decide)

/-- Reading a `set` list at the written position. -/
theorem getD_set_self {α : Type} (l : List α) (i : Nat) (a d : α) (h : i < l.length) :
    (l.set i a).getD i d = a := by
  induction l generalizing i with
  | nil => simp at h
  | cons x xs ih =>
      cases i with
      | zero => rfl
      | succ k => exact ih k (by simpa using h)

/-- Reading a `set` list away from the written position. -/
theorem getD_set_ne {α : Type} (l : List α) (i j : Nat) (a d : α) (h : i ≠ j) :
    (l.set i a).getD j d = l.getD j d := by
  induction l generalizing i j with
  | nil => rfl
  | cons x xs ih =>
      cases i with
      | zero =>
          cases j with
          | zero => exact absurd rfl h
          | succ k => rfl
      | succ i2 =>
          cases j with
          | zero => rfl
          | succ k => exact ih i2 k (by omega)

/-- Entrywise reading of a vector difference of equal-length vectors. -/
theorem gd_vecSub (a b : List ℚ) (h : a.length = b.length) (j : Nat) :
    gd (vecSub a b) j = gd a j - gd b j := by
  induction a generalizing b j with
  | nil =>
      cases b with
      | nil => simp [vecSub, gd]
      | cons y ys => simp at h
  | cons x xs ih =>
      cases b with
      | nil => simp at h
      | cons y ys =>
          cases j with
          | zero => simp [vecSub, gd]
          | succ k =>
              simpa [vecSub, gd, List.getD_cons_succ] using ih ys (by simpa using h) k

/-- Entrywise reading of a vector sum of equal-length vectors. -/
theorem gd_vecAdd (a b : List ℚ) (h : a.length = b.length) (j : Nat) :
    gd (vecAdd a b) j = gd a j + gd b j := by
  induction a generalizing b j with
  | nil =>
      cases b with
      | nil => simp [vecAdd, gd]
      | cons y ys => simp at h
  | cons x xs ih =>
      cases b with
      | nil => simp at h
      | cons y ys =>
          cases j with
          | zero => simp [vecAdd, gd]
          | succ k =>
              simpa [vecAdd, gd, List.getD_cons_succ] using ih ys (by simpa using h) k

/-- Entrywise reading of a scalar multiple. -/
theorem gd_smul (q : ℚ) (l : List ℚ) (j : Nat) : gd (smul q l) j = q * gd l j := by
  induction l generalizing j with
  | nil => simp [smul, gd]
  | cons x xs ih =>
      cases j with
      | zero => simp [smul, gd]
      | succ k => simpa [smul, gd, List.getD_cons_succ] using ih k

/-- Entrywise reading of the pivot-normalized row. -/
theorem gd_mapDiv (p : ℚ) (l : List ℚ) (j : Nat) :
    gd (l.map (fun x => x / p)) j = gd l j / p := by
  induction l generalizing j with
  | nil => simp [gd]
  | cons x xs ih =>
      cases j with
      | zero => simp [gd]
      | succ k => simpa [gd, List.getD_cons_succ] using ih k

/-- Entrywise reading of an elementwise negation. -/
theorem gd_mapNeg (l : List ℚ) (j : Nat) :
    gd (l.map (fun x => -x)) j = -(gd l j) := by
  induction l generalizing j with
  | nil => simp [gd]
  | cons x xs ih =>
      cases j with
      | zero => simp [gd]
      | succ k => simpa [gd, List.getD_cons_succ] using ih k

/-- Reading a mapped range list inside the range. -/
theorem gd_map_range (f : Nat → ℚ) (n j : Nat) (h : j < n) :
    gd ((List.range n).map f) j = f j := by
  rw [gd, List.getD_eq_getElem ((List.range n).map f) 0 (by simpa using h)]
  simp

/-- Reading an appended list: left part inside its length, else the right
part shifted. -/
theorem gd_append (a b : List ℚ) (j : Nat) :
    gd (a ++ b) j = if j < a.length then gd a j else gd b (j - a.length) := by
  induction a generalizing j with
  | nil => simp [gd]
  | cons x xs ih =>
      cases j with
      | zero => simp [gd]
      | succ k =>
          rw [List.cons_append]
          simp only [gd, List.getD_cons_succ, List.length_cons]
          rw [show (xs ++ b).getD k 0 = gd (xs ++ b) k from rfl, ih k]
          by_cases hk : k < xs.length
          · rw [if_pos hk, if_pos (by omega)]
            rfl
          · rw [if_neg hk, if_neg (by omega)]
            simp only [gd]
            congr 1
            omega

/-- Reading `dropLast` inside its length agrees with the original list. -/
theorem gd_dropLast (l : List ℚ) (j : Nat) (h : j < l.length - 1) :
    gd l.dropLast j = gd l j := by
  have h1 : j < l.dropLast.length := by simpa using h
  have h2 : j < l.length := by omega
  rw [gd, gd, List.getD_eq_getElem _ 0 h1, List.getD_eq_getElem _ 0 h2]
  exact List.getElem_dropLast l j h1

/-- Rows read in range are members. -/
theorem gdr_mem (T : Tab) (i : Nat) (h : i < T.length) : gdr T i ∈ T := by
  rw [gdr, List.getD_eq_getElem _ [] h]
  exact List.getElem_mem h

/-- Length of the update loop's output. -/
theorem updateRows_length (nr : List ℚ) (e : Nat) (lr : Int) (rows : List (List ℚ)) (i : Nat) :
    (updateRows nr e lr rows i).length = rows.length := by
  induction rows generalizing i with
  | nil => rfl
  | cons r rs ih => simpa [updateRows] using ih (i + 1)

/-- Row `k` of the update loop's output: unchanged at `leave_row`,
otherwise the elimination step. -/
theorem updateRows_getD (nr : List ℚ) (e : Nat) (lr : Int) (rows : List (List ℚ))
    (i k : Nat) (hk : k < rows.length) :
    (updateRows nr e lr rows i).getD k [] =
      if ((i + k : Nat) : Int) = lr then rows.getD k []
      else vecSub (rows.getD k []) (smul (gd (rows.getD k []) e) nr) := by
  induction rows generalizing i k with
  | nil => simp at hk
  | cons r rs ih =>
      cases k with
      | zero => simp [updateRows]
      | succ k2 =>
          have := ih (i + 1) k2 (by simpa using hk)
          simp only [updateRows, List.getD_cons_succ]
          rw [this]
          congr 2
          omega

/-- Characterization of the pivot at a valid leaving row `i0 + 1`: the
basis is updated at position `i0`, the leaving row is normalized by the
pivot entry, and every other row has the entering column eliminated. -/
theorem applyPivot_valid (T : Tab) (basic : List Nat) (e i0 : Nat) :
    (applyPivot T basic e ((i0 : Int) + 1)).2 = basic.set i0 e ∧
    ∀ k, k < T.length →
      gdr (applyPivot T basic e ((i0 : Int) + 1)).1 k =
        if k = i0 + 1 then (gdr T (i0 + 1)).map (fun x => x / gdd T (i0 + 1) e)
        else vecSub (gdr T k)
          (smul (gd (gdr T k) e)
            ((gdr T (i0 + 1)).map (fun x => x / gdd T (i0 + 1) e))) := by
  have hpy1 : pyIdx ((i0 : Int) + 1 - 1) basic.length = i0 := by
    unfold pyIdx
    rw [if_neg (by omega)]
    omega
  have hpy2 : pyIdx ((i0 : Int) + 1) T.length = i0 + 1 := by
    unfold pyIdx
    rw [if_neg (by omega)]
    omega
  constructor
  · simp only [applyPivot, hpy1]
  · intro k hk
    simp only [applyPivot, hpy1, hpy2]
    have hset : (T.set (i0 + 1) ((gdr T (i0 + 1)).map (fun x => x / gdd T (i0 + 1) e))).length
        = T.length := by simp
    rw [gdr, updateRows_getD _ e ((i0 : Int) + 1) _ 0 k (by rw [hset]; exact hk)]
    simp only [Nat.zero_add]
    by_cases hki : k = i0 + 1
    · subst hki
      rw [if_pos (by omega), if_pos rfl]
      exact getD_set_self T (i0 + 1) _ [] (by omega)
    · rw [if_neg (by omega), if_neg hki]
      rw [getD_set_ne T (i0 + 1) k _ [] (by omega)]
      rfl

/-- Preservation of the exact basis invariant by one guarded pivot step,
together with the basis bookkeeping: the length is unchanged and exactly
one entry changes (position `leave_row - 1` receives the entering column,
which differs from the variable it replaces). -/
theorem stepPivot_preserves (T : Tab) (basic : List Nat) (T2 : Tab) (basic2 : List Nat)
    (hInv : TabInv T basic) (hstep : stepPivot T basic = some (T2, basic2)) :
    TabInv T2 basic2 ∧ basic2.length = basic.length ∧
    ∃ p, p < basic.length ∧ basic2 = basic.set p (gnat basic2 p) ∧
      gnat basic p ≠ gnat basic2 p := by
  obtain ⟨hlen, hrows, hcols⟩ := hInv
  unfold stepPivot at hstep
  cases he : firstNegIdx (gdr T 0).dropLast with
  | none => rw [he] at hstep; exact absurd hstep (by simp)
  | some e =>
    rw [he] at hstep
    dsimp only [] at hstep
    by_cases hall : (((T.drop 1).map (fun r => gd r e)).all (fun x => decide (x ≤ 0))) = true
    · rw [if_pos hall] at hstep
      exact absurd hstep (by simp)
    · rw [if_neg hall] at hstep
      by_cases hsent : (scanLeave ((T.drop 1).map (fun r => gd r e))
          ((T.drop 1).map rlast) basic).leave = -1
      · rw [if_pos hsent] at hstep
        exact absurd hstep (by simp)
      · rw [if_neg hsent] at hstep
        have hap : applyPivot T basic e
            ((scanLeave ((T.drop 1).map (fun r => gd r e))
              ((T.drop 1).map rlast) basic).leave) = (T2, basic2) :=
          Option.some.inj hstep
        rcases scanPre_valid ((T.drop 1).map (fun r => gd r e))
            ((T.drop 1).map rlast) basic
            ((T.drop 1).map (fun r => gd r e)).length with ⟨hs, _⟩ | ⟨i0, hi0len, hel0, hlv⟩
        · rw [← scanLeave_eq_pre] at hs
          rw [hs] at hsent
          exact absurd rfl hsent
        · rw [← scanLeave_eq_pre] at hlv
          rw [hlv] at hap
          have hclen : ((T.drop 1).map (fun r => gd r e)).length = basic.length := by
            simp [hlen]
          have hi0 : i0 < basic.length := by omega
          have hi0T : i0 + 1 < T.length := by omega
          have hpel : epsQ < gdd T (i0 + 1) e := by
            rw [← gd_consCol T e i0]
            exact hel0
          have hpivne : gdd T (i0 + 1) e ≠ 0 := by
            have : (0 : ℚ) < epsQ := by decide
            intro hc
            rw [hc] at hpel
            linarith
          obtain ⟨hb2, hT2rows⟩ := applyPivot_valid T basic e i0
          rw [hap] at hb2 hT2rows
          dsimp only [] at hb2 hT2rows
          -- abbreviations
          set N := (gdr T 0).length with hN
          have he_spec := firstNegIdx_spec _ _ he
          have heN : e < N - 1 := by
            have := he_spec.1
            simpa using this
          have hobj_e : gdd T 0 e < -epsQ := by
            have := he_spec.2.1
            rwa [gd_dropLast (gdr T 0) e heN] at this
          have hrowlen : ∀ k, k < T.length → (gdr T k).length = N :=
            fun k hk => hrows (gdr T k) (gdr_mem T k hk)
          have hnewlen : ((gdr T (i0 + 1)).map (fun x => x / gdd T (i0 + 1) e)).length = N := by
            rw [List.length_map]
            exact hrowlen (i0 + 1) hi0T
          have hnew_j : ∀ j, gd ((gdr T (i0 + 1)).map (fun x => x / gdd T (i0 + 1) e)) j
              = gdd T (i0 + 1) j / gdd T (i0 + 1) e := fun j => gd_mapDiv _ _ j
          have hnew_e : gd ((gdr T (i0 + 1)).map (fun x => x / gdd T (i0 + 1) e)) e = 1 := by
            rw [hnew_j e]
            exact div_self hpivne
          -- lengths of T2
          have hT2len : T2.length = T.length := by
            have h1 : T2 = (applyPivot T basic e ((i0 : Int) + 1)).1 := by rw [hap]
            rw [h1]
            simp only [applyPivot]
            rw [updateRows_length]
            simp
          have hT2rowlen : ∀ k, k < T.length → (gdr T2 k).length = N := by
            intro k hk
            rw [hT2rows k hk]
            by_cases hki : k = i0 + 1
            · rw [if_pos hki]
              exact hnewlen
            · rw [if_neg hki]
              unfold vecSub
              rw [List.length_zipWith]
              unfold smul
              rw [List.length_map, hnewlen, hrowlen k hk]
              omega
          have hT2row0 : (gdr T2 0).length = N := hT2rowlen 0 (by omega)
          -- entry formula for non-leaving rows
          have hT2entry : ∀ k j, k < T.length → k ≠ i0 + 1 →
              gdd T2 k j = gdd T k j - gdd T k e * (gdd T (i0 + 1) j / gdd T (i0 + 1) e) := by
            intro k j hk hki
            rw [gdd, hT2rows k hk, if_neg hki,
              gd_vecSub _ _ (by unfold smul; rw [List.length_map, hnewlen, hrowlen k hk]) j,
              gd_smul, hnew_j j]
            rfl
          have hT2entry_lr : ∀ j, gdd T2 (i0 + 1) j = gdd T (i0 + 1) j / gdd T (i0 + 1) e := by
            intro j
            rw [gdd, hT2rows (i0 + 1) hi0T, if_pos rfl, hnew_j j]
          -- e-column of T2 is the unit vector at row i0+1
          have hcol_e : ∀ k, k < T.length →
              gdd T2 k e = if k = i0 + 1 then 1 else 0 := by
            intro k hk
            by_cases hki : k = i0 + 1
            · rw [if_pos hki, hki, hT2entry_lr e]
              exact div_self hpivne
            · rw [if_neg hki, hT2entry k e hk hki, div_self hpivne]
              ring
          -- old basic columns are untouched
          have hcol_old : ∀ p, p < basic.length → p ≠ i0 → ∀ k, k < T.length →
              gdd T2 k (gnat basic p) = gdd T k (gnat basic p) := by
            intro p hp hpne k hk
            have hnewRow_p : gdd T (i0 + 1) (gnat basic p) = 0 := by
              have := (hcols p hp).2.2 i0 hi0
              rw [this]
              rw [if_neg (by omega)]
            by_cases hki : k = i0 + 1
            · rw [hki, hT2entry_lr (gnat basic p), hnewRow_p]
              rw [zero_div]
            · rw [hT2entry k (gnat basic p) hk hki, hnewRow_p]
              rw [zero_div, mul_zero, sub_zero]
          -- helper facts about the new basis
          have hb2len : basic2.length = basic.length := by
            rw [hb2]
            simp
          have hb2_i0 : gnat basic2 i0 = e := by
            rw [hb2, gnat]
            exact getD_set_self basic i0 e 0 hi0
          have hb2_ne : ∀ p, p ≠ i0 → gnat basic2 p = gnat basic p := by
            intro p hp
            rw [hb2, gnat, gnat]
            exact getD_set_ne basic i0 p e 0 (by omega)
          refine ⟨⟨?_, ?_, ?_⟩, hb2len, ?_⟩
          · rw [hT2len, hb2len, hlen]
          · intro r hr
            rw [hT2row0]
            rcases List.mem_iff_getElem.mp hr with ⟨k, hkl, hke⟩
            have : r = gdr T2 k := by
              rw [gdr, List.getD_eq_getElem _ [] hkl, hke]
            rw [this]
            exact hT2rowlen k (by omega)
          · intro p hp2
            have hp : p < basic.length := by rwa [hb2len] at hp2
            by_cases hpi : p = i0
            · subst hpi
              rw [hb2_i0]
              refine ⟨?_, ?_, ?_⟩
              · rw [hT2row0]
                omega
              · rw [hcol_e 0 (by omega), if_neg (by omega)]
              · intro i hib
                rw [hb2len] at hib
                rw [hcol_e (i + 1) (by omega)]
                by_cases hii : i = p
                · rw [if_pos (by omega), if_pos hii]
                · rw [if_neg (by omega), if_neg hii]
            · rw [hb2_ne p hpi]
              obtain ⟨hbound, hobj, hunit⟩ := hcols p hp
              refine ⟨?_, ?_, ?_⟩
              · rw [hT2row0]
                exact hbound
              · rw [hcol_old p hp hpi 0 (by omega)]
                exact hobj
              · intro i hib
                rw [hb2len] at hib
                rw [hcol_old p hp hpi (i + 1) (by omega)]
                exact hunit i hib
          · refine ⟨i0, hi0, ?_, ?_⟩
            · rw [hb2_i0, hb2]
            · rw [hb2_i0]
              intro hc
              have h0 := (hcols i0 hi0).2.1
              rw [hc] at h0
              rw [h0] at hobj_e
              have : (0 : ℚ) < epsQ := by decide
              linarith

/-- Reading a mapped range list of any element type inside the range. -/
theorem getD_map_range {α : Type} (f : Nat → α) (n j : Nat) (d : α) (h : j < n) :
    ((List.range n).map f).getD j d = f j := by
  rw [List.getD_eq_getElem _ d (by simpa using h)]
  simp

/-- Reading a padded row inside the padding length. -/
theorem gd_padRow (n : Nat) (l : List ℚ) (j : Nat) (h : j < n) :
    gd (padRow n l) j = gd l j := by
  unfold padRow gd
  exact getD_map_range (fun j => gd l j) n j 0 h

/-- The objective-row structural fold keeps the length `A.ncols`. -/
theorem objStruct_length (c : List ℚ) (A : NMat) (b : List ℚ) (M : ℚ) :
    (objStruct c A b M).length = A.ncols := by
  unfold objStruct
  have key : ∀ (L : List Nat) (acc : List ℚ), acc.length = A.ncols →
      (L.foldl (fun acc i =>
        if gd b i < 0 then vecAdd acc (smul M (padRow A.ncols (gdr A.rows i)))
        else vecSub acc (smul M (padRow A.ncols (gdr A.rows i)))) acc).length = A.ncols := by
    intro L
    induction L with
    | nil => intro acc h; exact h
    | cons x xs ih =>
        intro acc h
        rw [List.foldl_cons]
        apply ih
        by_cases hx : gd b x < 0
        · rw [if_pos hx]
          unfold vecAdd smul padRow
          rw [List.length_zipWith, List.length_map, List.length_map, List.length_range]
          omega
        · rw [if_neg hx]
          unfold vecSub smul padRow
          rw [List.length_zipWith, List.length_map, List.length_map, List.length_range]
          omega
  exact key _ _ (by unfold padRow; simp)

/-- Length of a Big-M constraint row. -/
theorem conRow_length (A : NMat) (b : List ℚ) (i : Nat) :
    (conRow A b i).length = A.ncols + A.rows.length + 1 := by
  unfold conRow
  by_cases hx : gd b i < 0 <;> simp [padRow, hx] <;> omega

/-- Height of the initial tableau: `m + 1`. -/
theorem initialize_tableau_length (c : List ℚ) (A : NMat) (b : List ℚ) (M : ℚ) :
    (initialize_tableau c A b M).length = A.rows.length + 1 := by
  unfold initialize_tableau
  simp

/-- The objective row of the initial tableau. -/
theorem initialize_row0 (c : List ℚ) (A : NMat) (b : List ℚ) (M : ℚ) :
    gdr (initialize_tableau c A b M) 0 =
      objStruct c A b M ++ (List.range A.rows.length).map (fun _ => (0 : ℚ)) ++
        [-(((List.range A.rows.length).map (fun i => M * |gd b i|)).sum)] := rfl

/-- Width of the objective row: `n + m + 1`. -/
theorem initialize_row0_length (c : List ℚ) (A : NMat) (b : List ℚ) (M : ℚ) :
    (gdr (initialize_tableau c A b M) 0).length = A.ncols + A.rows.length + 1 := by
  rw [initialize_row0]
  simp [objStruct_length]
  omega

/-- Every row of the initial tableau has width `n + m + 1`. -/
theorem initialize_row_lengths (c : List ℚ) (A : NMat) (b : List ℚ) (M : ℚ) :
    ∀ r ∈ initialize_tableau c A b M, r.length = A.ncols + A.rows.length + 1 := by
  intro r hr
  unfold initialize_tableau at hr
  rcases List.mem_cons.mp hr with h | h
  · subst h
    simp [objStruct_length]
    omega
  · rcases List.mem_map.mp h with ⟨i, _, rfl⟩
    exact conRow_length A b i

/-- Constraint row `i` of the initial tableau is `conRow A b i`. -/
theorem initialize_conRow (c : List ℚ) (A : NMat) (b : List ℚ) (M : ℚ) (i : Nat)
    (h : i < A.rows.length) :
    gdr (initialize_tableau c A b M) (i + 1) = conRow A b i := by
  unfold initialize_tableau gdr
  rw [List.getD_cons_succ]
  exact getD_map_range (conRow A b) A.rows.length i [] h

/-- Artificial entries of a constraint row: `+1` on its own artificial
column, `0` on the others. -/
theorem conRow_art (A : NMat) (b : List ℚ) (i k : Nat) (hk : k < A.rows.length) :
    gd (conRow A b i) (A.ncols + k) = if k = i then 1 else 0 := by
  unfold conRow
  rw [List.append_assoc, gd_append]
  have hlen : (if gd b i < 0
      then (padRow A.ncols (gdr A.rows i)).map (fun x => -x)
      else padRow A.ncols (gdr A.rows i)).length = A.ncols := by
    by_cases hx : gd b i < 0
    · rw [if_pos hx]; simp [padRow]
    · rw [if_neg hx]; simp [padRow]
  rw [hlen, if_neg (by omega), gd_append]
  simp only [List.length_map, List.length_range]
  rw [if_pos (by omega)]
  have : A.ncols + k - A.ncols = k := by omega
  rw [this]
  exact gd_map_range (fun k2 => if k2 = i then (1 : ℚ) else 0) A.rows.length k hk

/-- Structural entries of a constraint row: `±A[i][j]` by the sign of
`b[i]`. -/
theorem conRow_struct (A : NMat) (b : List ℚ) (i j : Nat) (hj : j < A.ncols) :
    gd (conRow A b i) j =
      if gd b i < 0 then -(gd (gdr A.rows i) j) else gd (gdr A.rows i) j := by
  unfold conRow
  rw [List.append_assoc, gd_append]
  by_cases hx : gd b i < 0
  · rw [if_pos hx]
    rw [if_pos (by simp [padRow]; omega)]
    rw [if_pos hx, gd_mapNeg, gd_padRow A.ncols _ j hj]
  · rw [if_neg hx]
    rw [if_pos (by simp [padRow]; omega)]
    rw [if_neg hx, gd_padRow A.ncols _ j hj]

/-- RHS entry of a constraint row: `|b[i]|`, hence nonnegative. -/
theorem conRow_rhs (A : NMat) (b : List ℚ) (i : Nat) :
    gd (conRow A b i) (A.ncols + A.rows.length) =
      if gd b i < 0 then -(gd b i) else gd b i := by
  unfold conRow
  rw [List.append_assoc, gd_append]
  have hlen : (if gd b i < 0
      then (padRow A.ncols (gdr A.rows i)).map (fun x => -x)
      else padRow A.ncols (gdr A.rows i)).length = A.ncols := by
    by_cases hx : gd b i < 0
    · rw [if_pos hx]; simp [padRow]
    · rw [if_neg hx]; simp [padRow]
  rw [hlen, if_neg (by omega), gd_append]
  simp only [List.length_map, List.length_range]
  rw [if_neg (by omega)]
  have : A.ncols + A.rows.length - A.ncols - A.rows.length = 0 := by omega
  rw [this]
  rfl

/-- Artificial entries of the objective row are `0`. -/
theorem initialize_obj_art (c : List ℚ) (A : NMat) (b : List ℚ) (M : ℚ) (k : Nat)
    (hk : k < A.rows.length) :
    gdd (initialize_tableau c A b M) 0 (A.ncols + k) = 0 := by
  rw [gdd, initialize_row0, List.append_assoc, gd_append]
  rw [if_neg (by rw [objStruct_length]; omega), gd_append]
  simp only [List.length_map, List.length_range, objStruct_length]
  rw [if_pos (by omega)]
  have : A.ncols + k - A.ncols = k := by omega
  rw [this]
  exact gd_map_range (fun _ => (0 : ℚ)) A.rows.length k hk

/-- Objective RHS of the initial tableau: `-sum(M * |b i|)`. -/
theorem initialize_obj_rhs (c : List ℚ) (A : NMat) (b : List ℚ) (M : ℚ) :
    gdd (initialize_tableau c A b M) 0 (A.ncols + A.rows.length) =
      -(((List.range A.rows.length).map (fun i => M * |gd b i|)).sum) := by
  rw [gdd, initialize_row0, List.append_assoc, gd_append]
  rw [if_neg (by rw [objStruct_length]; omega), gd_append]
  simp only [List.length_map, List.length_range, objStruct_length]
  rw [if_neg (by omega)]
  have : A.ncols + A.rows.length - A.ncols - A.rows.length = 0 := by omega
  rw [this]
  rfl

/-- Structural entries of the objective row come from the fold. -/
theorem initialize_obj_struct (c : List ℚ) (A : NMat) (b : List ℚ) (M : ℚ) (j : Nat)
    (hj : j < A.ncols) :
    gdd (initialize_tableau c A b M) 0 j = gd (objStruct c A b M) j := by
  rw [gdd, initialize_row0, List.append_assoc, gd_append]
  rw [if_pos (by rw [objStruct_length]; omega)]

/-- Reading a `range'` list. -/
theorem gnat_range' (s len p : Nat) (h : p < len) :
    gnat (List.range' s len) p = s + p := by
  rw [gnat, List.getD_eq_getElem _ 0 (by simpa using h)]
  simp

/-- The initial basis of the initial tableau is the artificial block
`[n, n+1, ..., n+m-1]`. -/
theorem initBasis_init (c : List ℚ) (A : NMat) (b : List ℚ) (M : ℚ) :
    initBasis (initialize_tableau c A b M) = List.range' A.ncols A.rows.length := by
  unfold initBasis
  rw [initialize_tableau_length, initialize_row0_length]
  dsimp only []
  have h1 : A.ncols + A.rows.length + 1 - 1 - (A.rows.length + 1 - 1) = A.ncols := by omega
  have h2 : A.ncols + A.rows.length + 1 - 1 - A.ncols = A.rows.length := by omega
  rw [h1, h2]

/-- The initial Big-M tableau together with its initial basis satisfies
the exact basis invariant, with no hypotheses on the input shapes. -/
theorem tabInv_init (c : List ℚ) (A : NMat) (b : List ℚ) (M : ℚ) :
    TabInv (initialize_tableau c A b M) (initBasis (initialize_tableau c A b M)) := by
  rw [initBasis_init]
  refine ⟨?_, ?_, ?_⟩
  · rw [initialize_tableau_length]
    simp
  · intro r hr
    rw [initialize_row0_length]
    exact initialize_row_lengths c A b M r hr
  · intro p hp
    simp only [List.length_range'] at hp
    rw [gnat_range' A.ncols A.rows.length p hp]
    refine ⟨?_, ?_, ?_⟩
    · rw [initialize_row0_length]
      omega
    · exact initialize_obj_art c A b M p hp
    · intro i hi
      simp only [List.length_range'] at hi
      rw [gdd, initialize_conRow c A b M i hi, conRow_art A b i p hp]
      by_cases hip : p = i
      · rw [if_pos hip, if_pos hip.symm]
      · rw [if_neg hip, if_neg (by omega)]

/-- Iterated guarded pivots preserve the exact basis invariant. -/
theorem pivotIter_preserves :
    ∀ (k : Nat) (T : Tab) (basic : List Nat) (T2 : Tab) (basic2 : List Nat),
    TabInv T basic → pivotIter k (T, basic) = some (T2, basic2) → TabInv T2 basic2 := by
  intro k
  induction k with
  | zero =>
      intro T basic T2 basic2 hInv h
      unfold pivotIter at h
      simp at h
      obtain ⟨rfl, rfl⟩ := h
      exact hInv
  | succ k ih =>
      intro T basic T2 basic2 hInv h
      unfold pivotIter at h
      cases hs : stepPivot T basic with
      | none => rw [hs] at h; simp at h
      | some S2 =>
          rw [hs] at h
          have hpres := stepPivot_preserves T basic S2.1 S2.2 hInv (by rw [hs])
          exact ih S2.1 S2.2 T2 basic2 hpres.1 h

/-- Claim C1, amended: (1) every tableau `solve_simplex` accepts from the
Big-M builder satisfies the exact basis invariant with its initial basis
(so in particular the within-`epsQ` form of the spec); (2) one pivot step
preserves the invariant and changes exactly one basis entry — PROVIDED
the minimum-ratio scan found a valid leaving row (`stepPivot` is `some`;
the counterexample shows the invariant is destroyed on the sentinel
path); (3) hence the invariant holds after any number of such pivots. -/
theorem claim1_basis_invariant :
    (∀ (c : List ℚ) (A : NMat) (b : List ℚ) (M : ℚ),
      TabInv (initialize_tableau c A b M) (initBasis (initialize_tableau c A b M))) ∧
    (∀ (T : Tab) (basic : List Nat) (T2 : Tab) (basic2 : List Nat),
      TabInv T basic → stepPivot T basic = some (T2, basic2) →
      TabInv T2 basic2 ∧ basic2.length = basic.length ∧
      ∃ p, p < basic.length ∧ basic2 = basic.set p (gnat basic2 p) ∧
        gnat basic p ≠ gnat basic2 p) ∧
    (∀ (k : Nat) (T : Tab) (basic : List Nat) (T2 : Tab) (basic2 : List Nat),
      TabInv T basic → pivotIter k (T, basic) = some (T2, basic2) → TabInv T2 basic2) :=
  ⟨tabInv_init, stepPivot_preserves, pivotIter_preserves⟩

/-- Claim C1 amended witness: the Big-M tableau of `c = [1]`, `A = [[1]]`,
`b = [1]` (penalty `1e6`) pivots once into `[[0, 999999, -1], [1, 1, 1]]`
with basis `[0]`, and the invariant is preserved. -/
theorem claim1_basis_invariant_witness :
    TabInv [[0, 999999, -1], [1, 1, 1]] [0] ∧
    ([0] : List Nat).length = ([1] : List Nat).length ∧
    ∃ p, p < ([1] : List Nat).length ∧
      ([0] : List Nat) = ([1] : List Nat).set p (gnat [0] p) ∧
      gnat [1] p ≠ gnat [0] p :=
  claim1_basis_invariant.2.1 (initialize_tableau [1] ⟨[[1]], 1⟩ [1] 1000000) [1]
    [[0, 999999, -1], [1, 1, 1]] [0] (by decide) (by decide)

/-- The solution-filling loop never changes the vector length. -/
theorem fillSol_length (T : Tab) (n0 : Nat) :
    ∀ (bl : List Nat) (i : Nat) (sol : List ℚ),
    (fillSol T n0 bl i sol).length = sol.length := by
  intro bl
  induction bl with
  | nil => intro i sol; rfl
  | cons b0 rest ih =>
      intro i sol
      unfold fillSol
      rw [ih]
      by_cases hb : b0 < n0
      · rw [if_pos hb]; simp
      · rw [if_neg hb]

/-- The extracted solution has exactly `num_original_vars` entries. -/
theorem extractSolution_length (T : Tab) (n0 : Nat) (basic : List Nat) :
    (extractSolution T n0 basic).length = n0 := by
  unfold extractSolution
  rw [fillSol_length]
  simp

/-- Slots never pointed at by the basis list stay zero. -/
theorem fillSol_zero (T : Tab) (n0 : Nat) :
    ∀ (bl : List Nat) (i : Nat) (sol : List ℚ) (j : Nat), gd sol j = 0 →
    (∀ p, p < bl.length → gnat bl p ≠ j) → gd (fillSol T n0 bl i sol) j = 0 := by
  intro bl
  induction bl with
  | nil => intro i sol j h _; exact h
  | cons b0 rest ih =>
      intro i sol j h hnb
      unfold fillSol
      apply ih
      · have hb0 : b0 ≠ j := by
          have := hnb 0 (by simp)
          simpa [gnat] using this
        by_cases hb : b0 < n0
        · rw [if_pos hb, gd, getD_set_ne sol b0 j _ 0 hb0]
          exact h
        · rw [if_neg hb]; exact h
      · intro p hp
        have := hnb (p + 1) (by simpa using hp)
        simpa [gnat, List.getD_cons_succ] using this

/-- Zero slots of the all-zero start vector. -/
theorem gd_replicate_zero (n j : Nat) : gd (List.replicate n (0 : ℚ)) j = 0 := by
  induction n generalizing j with
  | zero => rfl
  | succ k ih =>
      cases j with
      | zero => rfl
      | succ j2 => simp only [gd, List.replicate, List.getD_cons_succ]; exact ih j2

/-- An `optimal` result of the pivot loop always carries BOTH the basis
list and the solution vector, and the solution is zero at every slot not
pointed at by the final basis. -/
theorem simplexLoop_optimal_some_zero :
    ∀ (fuel : Nat) (T : Tab) (basic : List Nat) (T2 : Tab) (bv : Option (List Nat))
      (sol : Option (List ℚ)),
    simplexLoop fuel T basic = some (T2, SimStatus.optimal, bv, sol) →
    ∃ bl sl, bv = some bl ∧ sol = some sl ∧
      ∀ j, (∀ p, p < bl.length → gnat bl p ≠ j) → gd sl j = 0 := by
  intro fuel
  induction fuel with
  | zero => intro T basic T2 bv sol h; simp [simplexLoop] at h
  | succ fuel ih =>
      intro T basic T2 bv sol h
      rw [simplexLoop] at h
      cases hit : iterStep T basic with
      | done T3 st3 bv3 sol3 =>
          rw [hit] at h
          obtain ⟨rfl, hst, rfl, rfl⟩ : T3 = T2 ∧ st3 = SimStatus.optimal ∧ bv3 = bv ∧
              sol3 = sol := by
            have := Option.some.inj h
            exact ⟨congrArg Prod.fst this, congrArg (fun x => x.2.1) this,
              congrArg (fun x => x.2.2.1) this, congrArg (fun x => x.2.2.2) this⟩
          unfold iterStep at hit
          cases he : firstNegIdx (gdr T 0).dropLast with
          | none =>
              rw [he] at hit
              dsimp only [] at hit
              injection hit with h1 h2 h3 h4
              refine ⟨basic, extractSolution T ((gdr T 0).length - 1 - (T.length - 1)) basic,
                h3.symm, h4.symm, ?_⟩
              intro j hj
              unfold extractSolution
              exact fillSol_zero T _ basic 0 _ j (gd_replicate_zero _ j) hj
          | some e =>
              rw [he] at hit
              dsimp only [] at hit
              by_cases hall : (((T.drop 1).map (fun r => gd r e)).all
                  (fun x => decide (x ≤ 0))) = true
              · rw [if_pos hall] at hit
                injection hit with h1 h2 h3 h4
                exact absurd h2.symm (by rw [hst]; intro hc; cases hc)
              · rw [if_neg hall] at hit
                cases hit
      | next T3 b3 =>
          rw [hit] at h
          exact ih T3 b3 T2 bv sol h

/-- Rows of the update loop keep their common length. -/
theorem updateRows_rows_length (nr : List ℚ) (e : Nat) (lr : Int) (N : Nat) :
    ∀ (rows : List (List ℚ)) (i : Nat), (∀ r ∈ rows, r.length = N) → nr.length = N →
    ∀ r ∈ updateRows nr e lr rows i, r.length = N := by
  intro rows
  induction rows with
  | nil => intro i _ _ r hr; simp [updateRows] at hr
  | cons r0 rs ih =>
      intro i hrows hnr r hr
      rcases List.mem_cons.mp hr with h | h
      · subst h
        by_cases hc : ((i : Int) = lr)
        · rw [if_pos hc]
          exact hrows r0 (by simp)
        · rw [if_neg hc]
          unfold vecSub smul
          rw [List.length_zipWith, List.length_map, hnr, hrows r0 (by simp)]
          omega
      · exact ih (i + 1) (fun r2 hr2 => hrows r2 (by simp [hr2])) hnr r h

/-- The pivot keeps the tableau height and the common row width, whenever
the pivot row index is in range. -/
theorem applyPivot_dims (T : Tab) (basic : List Nat) (e : Nat) (lr : Int) (N : Nat)
    (hrows : ∀ r ∈ T, r.length = N) (hr : pyIdx lr T.length < T.length) :
    (applyPivot T basic e lr).1.length = T.length ∧
    ∀ r ∈ (applyPivot T basic e lr).1, r.length = N := by
  have hnr : ((gdr T (pyIdx lr T.length)).map
      (fun x => x / gdd T (pyIdx lr T.length) e)).length = N := by
    rw [List.length_map]
    exact hrows _ (gdr_mem T _ hr)
  constructor
  · simp only [applyPivot]
    rw [updateRows_length]
    simp
  · intro r hrm
    simp only [applyPivot] at hrm
    refine updateRows_rows_length _ e lr N _ 0 ?_ hnr r hrm
    intro r2 hr2
    rcases List.mem_or_eq_of_mem_set hr2 with h | h
    · exact hrows r2 h
    · rw [h]
      exact hnr

/-- The pivot row index chosen by an iteration is always in range (either
a valid row from the scan, or the last row through Python's negative
indexing of the sentinel). -/
theorem scan_pyIdx_lt (T : Tab) (basic : List Nat) (e : Nat) (hne : T ≠ []) :
    pyIdx ((scanLeave ((T.drop 1).map (fun r => gd r e))
      ((T.drop 1).map rlast) basic).leave) T.length < T.length := by
  have hlen0 : 0 < T.length := List.length_pos.mpr hne
  rcases scanPre_valid ((T.drop 1).map (fun r => gd r e)) ((T.drop 1).map rlast) basic
      ((T.drop 1).map (fun r => gd r e)).length with ⟨hs, _⟩ | ⟨i0, hi0, _, hlv⟩
  · rw [← scanLeave_eq_pre] at hs
    rw [hs]
    have hsi : scanInit.leave = -1 := rfl
    rw [hsi]
    unfold pyIdx
    rw [if_pos (by omega)]
    omega
  · rw [← scanLeave_eq_pre] at hlv
    rw [hlv]
    unfold pyIdx
    rw [if_neg (by omega)]
    simp only [List.length_map, List.length_drop] at hi0
    omega

/-- On an `optimal` exit with a solution vector, the vector's length is
the initial tableau's `num_original_vars` (the loop preserves the
tableau's shape). -/
theorem simplexLoop_sol_length :
    ∀ (fuel : Nat) (T : Tab) (basic : List Nat) (T2 : Tab) (st : SimStatus)
      (bv : Option (List Nat)) (sol : Option (List ℚ)) (N : Nat),
    T ≠ [] → (∀ r ∈ T, r.length = N) →
    simplexLoop fuel T basic = some (T2, st, bv, sol) →
    ∀ s, sol = some s → s.length = (N - 1) - (T.length - 1) := by
  intro fuel
  induction fuel with
  | zero => intro T basic T2 st bv sol N _ _ h; simp [simplexLoop] at h
  | succ fuel ih =>
      intro T basic T2 st bv sol N hne hrows h s hsol
      have hrow0 : (gdr T 0).length = N :=
        hrows _ (gdr_mem T 0 (List.length_pos.mpr hne))
      rw [simplexLoop] at h
      cases hit : iterStep T basic with
      | done T3 st3 bv3 sol3 =>
          rw [hit] at h
          have hsol3 : sol3 = sol := by
            have := Option.some.inj h
            exact congrArg (fun x => x.2.2.2) this
          unfold iterStep at hit
          cases he : firstNegIdx (gdr T 0).dropLast with
          | none =>
              rw [he] at hit
              dsimp only [] at hit
              injection hit with h1 h2 h3 h4
              rw [← hsol3, ← h4] at hsol
              have hs2 : s = extractSolution T ((gdr T 0).length - 1 - (T.length - 1)) basic :=
                (Option.some.inj hsol).symm
              rw [hs2, extractSolution_length, hrow0]
          | some e =>
              rw [he] at hit
              dsimp only [] at hit
              by_cases hall : (((T.drop 1).map (fun r => gd r e)).all
                  (fun x => decide (x ≤ 0))) = true
              · rw [if_pos hall] at hit
                injection hit with h1 h2 h3 h4
                rw [← hsol3, ← h4] at hsol
                cases hsol
              · rw [if_neg hall] at hit
                cases hit
      | next T3 b3 =>
          rw [hit] at h
          unfold iterStep at hit
          cases he : firstNegIdx (gdr T 0).dropLast with
          | none =>
              rw [he] at hit
              dsimp only [] at hit
              cases hit
          | some e =>
              rw [he] at hit
              dsimp only [] at hit
              by_cases hall : (((T.drop 1).map (fun r => gd r e)).all
                  (fun x => decide (x ≤ 0))) = true
              · rw [if_pos hall] at hit
                cases hit
              · rw [if_neg hall] at hit
                injection hit with hT3 hb3
                obtain ⟨hlen3, hrows3⟩ := applyPivot_dims T basic e _ N hrows
                  (scan_pyIdx_lt T basic e hne)
                rw [hT3] at hlen3 hrows3
                have hne3 : T3 ≠ [] := by
                  intro hc
                  rw [hc] at hlen3
                  simp at hlen3
                  exact hne (List.length_eq_zero.mp hlen3.symm)
                have := ih T3 b3 T2 st bv sol N hne3 hrows3 h s hsol
                rw [this, hlen3]

/-- All-equality tags append nothing to the objective vector. -/
theorem filter_neq_replicate (m : Nat) :
    (List.replicate m Ineq.eq).filter (fun t => decide (¬ t = Ineq.eq)) = [] := by
  induction m with
  | zero => rfl
  | succ k ih => simp only [List.replicate]; exact ih

/-- All-equality tags make every appended column an equality column. -/
theorem idxWhere_replicate_eq_length (m i : Nat) :
    (idxWhere (fun t => decide (t = Ineq.eq)) (List.replicate m Ineq.eq) i).length = m := by
  induction m generalizing i with
  | zero => rfl
  | succ k ih => simpa [List.replicate, idxWhere] using ih (i + 1)

/-- `read_and_standardize` (all rows tagged `=`, minimization) passes the
objective through unchanged. -/
theorem convert_alleq_c (c : List ℚ) (A : List (List ℚ)) (b : List ℚ) (m : Nat) :
    (convert_to_standard_form c A b (List.replicate m Ineq.eq) false).1 = c := by
  unfold convert_to_standard_form
  dsimp only []
  rw [filter_neq_replicate]
  simp

/-- Under all-equality tags the standardized matrix keeps `len c` columns. -/
theorem convert_alleq_ncols (c : List ℚ) (A : List (List ℚ)) (b : List ℚ) (m : Nat) :
    (convert_to_standard_form c A b (List.replicate m Ineq.eq) false).2.1.ncols = c.length := by
  unfold convert_to_standard_form
  dsimp only []
  rw [idxWhere_replicate_eq_length]
  simp

/-- The analyzer returns the objective vector unchanged in every branch. -/
theorem check_and_fix_c (c : List ℚ) (A : NMat) (b : List ℚ) (tolv : ℚ) :
    (check_and_fix_rank c A b tolv).2.1 = c := by
  unfold check_and_fix_rank
  dsimp only []
  split_ifs <;> rfl

/-- The analyzer only removes rows: the column count is unchanged in
every branch. -/
theorem check_and_fix_ncols (c : List ℚ) (A : NMat) (b : List ℚ) (tolv : ℚ) :
    (check_and_fix_rank c A b tolv).2.2.1.ncols = A.ncols := by
  unfold check_and_fix_rank
  dsimp only []
  split_ifs <;> simp [rowSel]

/-- Claim C3: (1) whenever the pipeline ends `optimal`, the solution
vector handed to the verification consumer has length exactly `len c` —
the original variable count (the file format standardized by
`read_and_standardize` tags every row `=`, so no slack or surplus columns
are added, and the artificial columns are excluded by construction);
(2) the solution vector is zero at every slot not pointed at by the final
basis. -/
theorem claim3_solution_length :
    (∀ (fuel : Nat) (c : List ℚ) (A : List (List ℚ)) (b : List ℚ) (v : ℚ) (sol : List ℚ),
      solve_linear_program fuel c A b = PipeResult.optimalRes v sol →
      sol.length = c.length) ∧
    (∀ (fuel : Nat) (T : Tab) (basic : List Nat) (T2 : Tab) (bv : Option (List Nat))
      (sol : Option (List ℚ)),
      simplexLoop fuel T basic = some (T2, SimStatus.optimal, bv, sol) →
      ∃ bl sl, bv = some bl ∧ sol = some sl ∧
        ∀ j, (∀ p, p < bl.length → gnat bl p ≠ j) → gd sl j = 0) := by
  constructor
  · intro fuel c A b v sol h
    unfold solve_linear_program pipelineWith at h
    dsimp only [] at h
    by_cases hfeas : (check_and_fix_rank
        (convert_to_standard_form c A b (List.replicate A.length Ineq.eq) false).1
        (convert_to_standard_form c A b (List.replicate A.length Ineq.eq) false).2.1
        (convert_to_standard_form c A b (List.replicate A.length Ineq.eq) false).2.2 tolQ).1
        = false
    · rw [if_pos hfeas] at h
      cases h
    · rw [if_neg hfeas] at h
      set chk := check_and_fix_rank
        (convert_to_standard_form c A b (List.replicate A.length Ineq.eq) false).1
        (convert_to_standard_form c A b (List.replicate A.length Ineq.eq) false).2.1
        (convert_to_standard_form c A b (List.replicate A.length Ineq.eq) false).2.2 tolQ
        with hchk
      set T0 := initialize_tableau chk.2.1 chk.2.2.1 chk.2.2.2 1000000 with hT0
      cases hres : solve_simplex fuel T0 with
      | none => rw [hres] at h; cases h
      | some res =>
          rw [hres] at h
          obtain ⟨T2, st, bv, solOpt⟩ := res
          cases st with
          | optimal =>
              dsimp only [] at h
              have hsol : sol = solOpt.getD [] := (PipeResult.optimalRes.inj h).2.symm
              have hloop : simplexLoop fuel T0 (initBasis T0) =
                  some (T2, SimStatus.optimal, bv, solOpt) := hres
              obtain ⟨bl, sl, hbv2, hsl2, _⟩ :=
                simplexLoop_optimal_some_zero fuel T0 (initBasis T0) T2 bv solOpt hloop
              have hN : ∀ r ∈ T0, r.length = chk.2.2.1.ncols + chk.2.2.1.rows.length + 1 :=
                initialize_row_lengths _ _ _ _
              have hT0len : T0.length = chk.2.2.1.rows.length + 1 :=
                initialize_tableau_length _ _ _ _
              have hT0ne : T0 ≠ [] := by
                intro hc
                rw [hc] at hT0len
                simp at hT0len
              have hslen := simplexLoop_sol_length fuel T0 (initBasis T0) T2
                SimStatus.optimal bv solOpt _ hT0ne hN hloop sl hsl2
              rw [hsol, hsl2]
              have hncols : chk.2.2.1.ncols = c.length := by
                rw [hchk, check_and_fix_ncols, convert_alleq_ncols]
              simp only [Option.getD_some]
              rw [hslen, hT0len, hncols]
              omega
          | unbounded =>
              dsimp only [] at h
              cases h
  · intro fuel T basic T2 bv sol h
    exact simplexLoop_optimal_some_zero fuel T basic T2 bv sol h

/-- Claim C3 witness: the one-variable pipeline run ends optimal with the
one-entry solution `[1]`. -/
theorem claim3_solution_length_witness :
    solve_linear_program 10 [1] [[1]] [1] = PipeResult.optimalRes 1 [1] ∧
    ([(1 : ℚ)] : List ℚ).length = ([(1 : ℚ)] : List ℚ).length :=
  ⟨by decide, claim3_solution_length.1 10 [1] [[1]] [1] 1 [1] (by decide)⟩

/-- Entrywise value of the objective-row structural fold: the original
coefficient plus the signed `M`-weighted column sums of the constraint
rows. -/
theorem objStruct_entry (c : List ℚ) (A : NMat) (b : List ℚ) (M : ℚ) (j : Nat)
    (hj : j < A.ncols) :
    gd (objStruct c A b M) j =
      gd c j + ((List.range A.rows.length).map (fun i =>
        if gd b i < 0 then M * gd (gdr A.rows i) j
        else -(M * gd (gdr A.rows i) j))).sum := by
  unfold objStruct
  have key : ∀ (L : List Nat) (acc : List ℚ), acc.length = A.ncols →
      gd (L.foldl (fun acc i =>
        if gd b i < 0 then vecAdd acc (smul M (padRow A.ncols (gdr A.rows i)))
        else vecSub acc (smul M (padRow A.ncols (gdr A.rows i)))) acc) j =
      gd acc j + (L.map (fun i =>
        if gd b i < 0 then M * gd (gdr A.rows i) j
        else -(M * gd (gdr A.rows i) j))).sum := by
    intro L
    induction L with
    | nil => intro acc _; simp
    | cons x xs ih =>
        intro acc h
        rw [List.foldl_cons, List.map_cons, List.sum_cons]
        have hslen : (smul M (padRow A.ncols (gdr A.rows x))).length = A.ncols := by
          unfold smul padRow
          simp
        have hstep : ((if gd b x < 0
            then vecAdd acc (smul M (padRow A.ncols (gdr A.rows x)))
            else vecSub acc (smul M (padRow A.ncols (gdr A.rows x))))).length = A.ncols := by
          by_cases hx : gd b x < 0
          · rw [if_pos hx]
            unfold vecAdd
            rw [List.length_zipWith, hslen, h]
            omega
          · rw [if_neg hx]
            unfold vecSub
            rw [List.length_zipWith, hslen, h]
            omega
        rw [ih _ hstep]
        have hval : gd (if gd b x < 0
            then vecAdd acc (smul M (padRow A.ncols (gdr A.rows x)))
            else vecSub acc (smul M (padRow A.ncols (gdr A.rows x)))) j =
            gd acc j + (if gd b x < 0 then M * gd (gdr A.rows x) j
              else -(M * gd (gdr A.rows x) j)) := by
          by_cases hx : gd b x < 0
          · rw [if_pos hx, if_pos hx,
              gd_vecAdd acc _ (by rw [hslen, h]) j, gd_smul, gd_padRow _ _ _ hj]
          · rw [if_neg hx, if_neg hx,
              gd_vecSub acc _ (by rw [hslen, h]) j, gd_smul, gd_padRow _ _ _ hj]
            ring
        rw [hval]
        ring
  rw [key _ _ (by unfold padRow; simp)]
  rw [gd_padRow _ _ _ hj]

/-- Claim C5: full characterization of `initialize_tableau` on every
input: an `(m+1) × (n+m+1)` tableau; constraint row `i` is `-A[i]` with
RHS `-b[i]` when `b[i] < 0` and `A[i]` with RHS `b[i]` otherwise (so every
constraint RHS is `≥ 0`), artificial column `n + i` holds `+1` in row `i`
and `0` elsewhere; the objective row's structural entries are `c`
adjusted by `+M·A[i]` for each negated row and `-M·A[i]` for the others,
its artificial entries are `0`, and its RHS is `-M · Σ|b[i]|`
(written as `-Σ (M * |b i|)`, exactly as the source computes it). -/
theorem claim5_initialize_tableau (c : List ℚ) (A : NMat) (b : List ℚ) (M : ℚ) :
    (initialize_tableau c A b M).length = A.rows.length + 1 ∧
    (∀ r ∈ initialize_tableau c A b M, r.length = A.ncols + A.rows.length + 1) ∧
    (∀ i, i < A.rows.length →
      (∀ j, j < A.ncols → gdd (initialize_tableau c A b M) (i + 1) j =
        if gd b i < 0 then -(gd (gdr A.rows i) j) else gd (gdr A.rows i) j) ∧
      (∀ k, k < A.rows.length → gdd (initialize_tableau c A b M) (i + 1) (A.ncols + k) =
        if k = i then 1 else 0) ∧
      gdd (initialize_tableau c A b M) (i + 1) (A.ncols + A.rows.length) =
        (if gd b i < 0 then -(gd b i) else gd b i) ∧
      0 ≤ gdd (initialize_tableau c A b M) (i + 1) (A.ncols + A.rows.length)) ∧
    (∀ j, j < A.ncols → gdd (initialize_tableau c A b M) 0 j =
      gd c j + ((List.range A.rows.length).map (fun i =>
        if gd b i < 0 then M * gd (gdr A.rows i) j
        else -(M * gd (gdr A.rows i) j))).sum) ∧
    (∀ k, k < A.rows.length → gdd (initialize_tableau c A b M) 0 (A.ncols + k) = 0) ∧
    gdd (initialize_tableau c A b M) 0 (A.ncols + A.rows.length) =
      -(((List.range A.rows.length).map (fun i => M * |gd b i|)).sum) := by
  refine ⟨initialize_tableau_length c A b M, initialize_row_lengths c A b M, ?_, ?_, ?_, ?_⟩
  · intro i hi
    refine ⟨?_, ?_, ?_, ?_⟩
    · intro j hj
      rw [gdd, initialize_conRow c A b M i hi, conRow_struct A b i j hj]
    · intro k hk
      rw [gdd, initialize_conRow c A b M i hi, conRow_art A b i k hk]
    · rw [gdd, initialize_conRow c A b M i hi, conRow_rhs A b i]
    · rw [gdd, initialize_conRow c A b M i hi, conRow_rhs A b i]
      by_cases hx : gd b i < 0
      · rw [if_pos hx]
        linarith
      · rw [if_neg hx]
        linarith
  · intro j hj
    rw [initialize_obj_struct c A b M j hj, objStruct_entry c A b M j hj]
  · exact initialize_obj_art c A b M
  · exact initialize_obj_rhs c A b M

/-- Shifting the running offset of `idxWhere` shifts every index. -/
theorem idxWhere_shift (p : Ineq → Bool) :
    ∀ (ts : List Ineq) (i : Nat), idxWhere p ts i = (idxWhere p ts 0).map (fun k => k + i) := by
  intro ts
  induction ts with
  | nil => intro i; rfl
  | cons t ts ih =>
      intro i
      unfold idxWhere
      by_cases hp : p t
      · rw [if_pos hp, if_pos hp, ih (i + 1), ih 1]
        simp only [List.map_cons, List.map_map, Nat.zero_add]
        congr 1
        apply List.map_congr_left
        intro a _
        show a + (i + 1) = a + 1 + i
        omega
      · rw [if_neg hp, if_neg hp, ih (i + 1), ih 1]
        simp only [List.map_map]
        apply List.map_congr_left
        intro a _
        show a + (i + 1) = a + 1 + i
        omega

/-- Membership in `idxWhere` at offset 0: exactly the in-range positions
whose tag satisfies the predicate. -/
theorem mem_idxWhere0 (p : Ineq → Bool) :
    ∀ (ts : List Ineq) (k : Nat),
    k ∈ idxWhere p ts 0 ↔ (k < ts.length ∧ p (ts.getD k Ineq.eq) = true) := by
  intro ts
  induction ts with
  | nil => intro k; simp [idxWhere]
  | cons t ts ih =>
      intro k
      unfold idxWhere
      rw [idxWhere_shift p ts 1]
      by_cases hp : p t
      · rw [if_pos hp]
        cases k with
        | zero => simp [hp]
        | succ k2 =>
            simp only [List.mem_cons, List.mem_map, List.length_cons,
              List.getD_cons_succ]
            constructor
            · rintro (hc | ⟨k3, hk3, hke⟩)
              · exact absurd hc (by omega)
              · have hk32 : k3 = k2 := by omega
                rw [hk32] at hk3
                have h2 := (ih k2).mp hk3
                exact ⟨by omega, h2.2⟩
            · rintro ⟨hlt, hpk⟩
              exact Or.inr ⟨k2, (ih k2).mpr ⟨by omega, hpk⟩, by omega⟩
      · rw [if_neg hp]
        cases k with
        | zero =>
            simp only [List.mem_map, List.length_cons, List.getD_cons_zero]
            constructor
            · rintro ⟨k3, _, hke⟩
              omega
            · rintro ⟨_, hpk⟩
              exact absurd hpk hp
        | succ k2 =>
            simp only [List.mem_map, List.length_cons, List.getD_cons_succ]
            constructor
            · rintro ⟨k3, hk3, hke⟩
              have hk32 : k3 = k2 := by omega
              rw [hk32] at hk3
              have h2 := (ih k2).mp hk3
              exact ⟨by omega, h2.2⟩
            · rintro ⟨hlt, hpk⟩
              exact ⟨k2, (ih k2).mpr ⟨by omega, hpk⟩, by omega⟩

/-- Filtering a mapped list is mapping the filtered preimages. -/
theorem filter_of_map {α β : Type} (f : α → β) (p : β → Bool) :
    ∀ (l : List α), (l.map f).filter p = (l.filter (fun a => p (f a))).map f := by
  intro l
  induction l with
  | nil => rfl
  | cons x xs ih =>
      simp only [List.map_cons, List.filter_cons]
      by_cases hp : p (f x)
      · rw [if_pos hp, if_pos hp, List.map_cons, ih]
      · rw [if_neg hp, if_neg hp, ih]

/-- Count of matching positions equals the filtered length. -/
theorem idxWhere_length (p : Ineq → Bool) :
    ∀ (ts : List Ineq) (i : Nat), (idxWhere p ts i).length = (ts.filter p).length := by
  intro ts
  induction ts with
  | nil => intro i; rfl
  | cons t ts ih =>
      intro i
      unfold idxWhere
      rw [List.filter_cons]
      by_cases hp : p t
      · rw [if_pos hp, if_pos hp]
        simp [ih (i + 1)]
      · rw [if_neg hp, if_neg hp]
        exact ih (i + 1)

/-- The non-equality count splits into the `≤` and `≥` counts. -/
theorem filter_ne_eq_split (tags : List Ineq) :
    (tags.filter (fun t => decide (¬ t = Ineq.eq))).length =
      (tags.filter (fun t => decide (t = Ineq.le))).length +
        (tags.filter (fun t => decide (t = Ineq.ge))).length := by
  induction tags with
  | nil => rfl
  | cons t ts ih =>
      simp only [decide_not] at ih ⊢
      cases t <;> simp [List.filter_cons] <;> omega

/-- The equality count and non-equality count partition the tag list. -/
theorem filter_eq_add_ne (tags : List Ineq) :
    (tags.filter (fun t => decide (t = Ineq.eq))).length +
      (tags.filter (fun t => decide (¬ t = Ineq.eq))).length = tags.length := by
  induction tags with
  | nil => rfl
  | cons t ts ih =>
      simp only [decide_not] at ih ⊢
      cases t <;> simp [List.filter_cons] <;> omega

/-- With no equality rows every position is a non-equality position. -/
theorem nonEqIdx_of_no_eq :
    ∀ (tags : List Ineq), idxWhere (fun t => decide (t = Ineq.eq)) tags 0 = [] →
    nonEqIdx tags = List.range tags.length := by
  intro tags
  induction tags with
  | nil => intro _; rfl
  | cons t ts ih =>
      intro h
      have hts : idxWhere (fun t => decide (t = Ineq.eq)) ts 0 = [] := by
        unfold idxWhere at h
        cases t with
        | eq => simp at h
        | le =>
            rw [if_neg (by decide), idxWhere_shift _ ts 1] at h
            exact List.map_eq_nil_iff.mp h
        | ge =>
            rw [if_neg (by decide), idxWhere_shift _ ts 1] at h
            exact List.map_eq_nil_iff.mp h
      have hne : t ≠ Ineq.eq := by
        intro hc
        subst hc
        unfold idxWhere at h
        simp at h
      unfold nonEqIdx idxWhere
      rw [if_pos (by simp [hne]), idxWhere_shift _ ts 1,
        show idxWhere (fun t => decide (¬ t = Ineq.eq)) ts 0 = List.range ts.length from ih hts]
      simp only [List.length_cons]
      rw [List.range_succ_eq_map]

/-- `idxWhere` at offset 0 is the filtered index range. -/
theorem idxWhere_eq_filter_range (p : Ineq → Bool) :
    ∀ (ts : List Ineq),
    idxWhere p ts 0 =
      (List.range ts.length).filter (fun k => p (ts.getD k Ineq.eq)) := by
  intro ts
  induction ts with
  | nil => rfl
  | cons t ts ih =>
      unfold idxWhere
      rw [idxWhere_shift p ts 1, ih]
      simp only [List.length_cons]
      rw [List.range_succ_eq_map,
        show (List.range ts.length).map Nat.succ =
          (List.range ts.length).map (fun k => k + 1) from rfl,
        List.filter_cons, filter_of_map]
      simp only [List.getD_cons_succ, List.getD_cons_zero]

/-- The membership characterization of `nonEqIdx`. -/
theorem mem_nonEqIdx (tags : List Ineq) (k : Nat) :
    k ∈ nonEqIdx tags ↔
      (k < tags.length ∧ ¬ tags.getD k Ineq.eq = Ineq.eq) := by
  rw [nonEqIdx, mem_idxWhere0]
  simp

/-- Boolean `contains` as a decided membership proposition. -/
theorem contains_eq_decide_mem (l : List Nat) (a : Nat) :
    l.contains a = decide (a ∈ l) := by
  by_cases h : a ∈ l
  · simp [h]
  · simp [h]

/-- The `cols_to_keep` filter is the first `n` indices followed by the
shifted non-equality row indices. -/
theorem keep_eq (n : Nat) (tags : List Ineq) :
    (List.range (n + tags.length)).filter
        (fun j => decide (j < n) ||
          !((idxWhere (fun t => decide (t = Ineq.eq)) tags 0).contains (j - n))) =
      List.range n ++ (nonEqIdx tags).map (fun k => n + k) := by
  rw [List.range_add n tags.length, List.filter_append, filter_of_map]
  congr 1
  · apply List.filter_eq_self.mpr
    intro j hj
    have hjn : j < n := List.mem_range.mp hj
    simp [hjn]
  · rw [nonEqIdx, idxWhere_eq_filter_range (fun t => decide (¬ t = Ineq.eq)) tags]
    congr 1
    apply List.filter_congr
    intro a ha
    have ham : a < tags.length := List.mem_range.mp ha
    have hmem : a ∈ idxWhere (fun t => decide (t = Ineq.eq)) tags 0 ↔
        tags.getD a Ineq.eq = Ineq.eq := by
      rw [mem_idxWhere0]
      constructor
      · intro h
        simpa using h.2
      · intro h
        exact ⟨ham, by simpa using h⟩
    show (decide (n + a < n) ||
        !((idxWhere (fun t => decide (t = Ineq.eq)) tags 0).contains (n + a - n))) =
      decide (¬ tags.getD a Ineq.eq = Ineq.eq)
    rw [Nat.add_sub_cancel_left, contains_eq_decide_mem,
      decide_eq_false (by omega : ¬ n + a < n), Bool.false_or,
      decide_eq_decide.mpr hmem]
    exact decide_not.symm

/-- The row-building loop produces one row per zipped pair. -/
theorem buildRows_len (m : Nat) :
    ∀ (A : List (List ℚ)) (tags : List Ineq) (i : Nat),
    (buildRows m A tags i).length = min A.length tags.length := by
  intro A
  induction A with
  | nil => intro tags i; simp [buildRows]
  | cons r rs ih =>
      intro tags i
      cases tags with
      | nil => simp [buildRows]
      | cons t ts =>
          simp only [buildRows, List.length_cons, ih ts (i + 1)]
          omega

/-- Row `r` of the row-building loop: the original row with the
slack/surplus extension appended. -/
theorem buildRows_getD (m : Nat) :
    ∀ (A : List (List ℚ)) (tags : List Ineq) (i0 r : Nat),
    r < A.length → r < tags.length →
    (buildRows m A tags i0).getD r [] =
      A.getD r [] ++ extRow m (i0 + r) (tags.getD r Ineq.eq) := by
  intro A
  induction A with
  | nil => intro tags i0 r hr _; exact absurd hr (by simp)
  | cons a as ih =>
      intro tags i0 r hr ht
      cases tags with
      | nil => exact absurd ht (by simp)
      | cons t ts =>
          cases r with
          | zero => simp [buildRows]
          | succ r2 =>
              simp only [buildRows, List.getD_cons_succ]
              rw [ih ts (i0 + 1) r2 (by simpa using hr) (by simpa using ht)]
              rw [show i0 + 1 + r2 = i0 + (r2 + 1) from by omega]

/-- Reading every index of a list back produces the list. -/
theorem map_range_gd_self (l : List ℚ) :
    (List.range l.length).map (fun i => gd l i) = l := by
  apply List.ext_getElem
  · simp
  · intro i h1 h2
    simp only [List.getElem_map, List.getElem_range]
    exact List.getD_eq_getElem l 0 h2

/-- `getD` through a `map`, inside the length. -/
theorem getD_map_gen {α β : Type} (f : α → β) (l : List α) (q : Nat)
    (d : α) (d2 : β) (h : q < l.length) :
    (l.map f).getD q d2 = f (l.getD q d) := by
  rw [List.getD_eq_getElem _ d2 (by simpa using h), List.getD_eq_getElem _ d h,
    List.getElem_map]

/-- Reading a constant-zero mapped list gives zero at every index. -/
theorem gd_map_const0 {α : Type} (l : List α) (j : Nat) :
    gd (l.map (fun _ => (0 : ℚ))) j = 0 := by
  induction l generalizing j with
  | nil => simp [gd]
  | cons x xs ih =>
      cases j with
      | zero => rfl
      | succ k => simp only [gd, List.getD_cons_succ]; exact ih k

/-- Indices read in range are members. -/
theorem gnat_mem (l : List Nat) (q : Nat) (h : q < l.length) : gnat l q ∈ l := by
  rw [gnat, List.getD_eq_getElem _ 0 h]
  exact List.getElem_mem h

/-- Row count of the converted matrix. -/
theorem convert_rows_len (c : List ℚ) (A : List (List ℚ)) (b : List ℚ)
    (tags : List Ineq) (maximize : Bool) (hm : A.length = tags.length) :
    (convert_to_standard_form c A b tags maximize).2.1.rows.length = A.length := by
  unfold convert_to_standard_form
  dsimp only []
  by_cases he : idxWhere (fun t => decide (t = Ineq.eq)) tags 0 = []
  · rw [if_pos (by simp [he]), buildRows_len]
    omega
  · rw [if_neg (by simpa using he), List.length_map, buildRows_len]
    omega

/-- Row `r` of the converted matrix: the original row followed by one
entry per kept appended column — `tagCoef` of row `r`'s tag in row `r`'s
own appended column (if any) and `0` in every other appended column. -/
theorem convert_rows (c : List ℚ) (A : List (List ℚ)) (b : List ℚ)
    (tags : List Ineq) (maximize : Bool)
    (hm : A.length = tags.length)
    (hrow : ∀ r ∈ A, r.length = c.length)
    (r : Nat) (hr : r < A.length) :
    gdr (convert_to_standard_form c A b tags maximize).2.1.rows r =
      gdr A r ++ (nonEqIdx tags).map
        (fun k => if k = r then tagCoef (tags.getD r Ineq.eq) else 0) := by
  have hr2 : r < tags.length := by omega
  have hA : (gdr A r).length = c.length := hrow _ (gdr_mem A r hr)
  have hc0 : (if maximize then c.map (fun x => -x) else c).length = c.length := by
    cases maximize <;> simp
  have hrows1 : r < (buildRows tags.length A tags 0).length := by
    rw [buildRows_len]
    omega
  have hb : (buildRows tags.length A tags 0).getD r [] =
      gdr A r ++ extRow tags.length r (tags.getD r Ineq.eq) := by
    rw [buildRows_getD tags.length A tags 0 r hr hr2, Nat.zero_add]
    rfl
  unfold convert_to_standard_form
  dsimp only []
  by_cases he : idxWhere (fun t => decide (t = Ineq.eq)) tags 0 = []
  · rw [if_pos (by simp [he]), gdr, hb, nonEqIdx_of_no_eq tags he]
    rfl
  · rw [if_neg (by simpa using he), gdr, getD_map_gen _ _ r [] [] hrows1, hb,
      keep_eq, List.map_append, List.map_map]
    congr 1
    · have hleft : ∀ j ∈ List.range
          (if maximize then c.map (fun x => -x) else c).length,
          gd (gdr A r ++ extRow tags.length r (tags.getD r Ineq.eq)) j =
            gd (gdr A r) j := by
        intro j hj
        have hjn : j < (gdr A r).length := by
          have := List.mem_range.mp hj
          omega
        rw [gd_append, if_pos hjn]
      rw [List.map_congr_left hleft,
        show (if maximize then c.map (fun x => -x) else c).length =
          (gdr A r).length from by omega,
        map_range_gd_self]
    · apply List.map_congr_left
      intro k hk
      obtain ⟨hkm, _⟩ := (mem_nonEqIdx tags k).mp hk
      show gd (gdr A r ++ extRow tags.length r (tags.getD r Ineq.eq))
          ((if maximize then c.map (fun x => -x) else c).length + k) =
        if k = r then tagCoef (tags.getD r Ineq.eq) else 0
      rw [gd_append, if_neg (by omega),
        show (if maximize then c.map (fun x => -x) else c).length + k -
          (gdr A r).length = k from by omega]
      simp only [extRow]
      exact gd_map_range _ tags.length k hkm

/-- Claim C8: on every well-formed general-form input (as many tags as
rows, rectangular `A`), `convert_to_standard_form` satisfies the spec's
description: `b` unchanged; `c'` and `A'` have `n + #≤ + #≥` columns;
original coefficients kept; the first `n` entries of `c'` are `c` negated
exactly when maximizing; every appended column has objective coefficient
`0` and is the unit vector of its own non-equality row scaled `+1` for
`≤` and `-1` for `≥`; and appended columns exist only for non-equality
rows. -/
theorem claim8_convert_spec (c : List ℚ) (A : List (List ℚ)) (b : List ℚ)
    (tags : List Ineq) (maximize : Bool)
    (hm : A.length = tags.length)
    (hrow : ∀ r ∈ A, r.length = c.length) :
    convertSpecClaim c A b tags maximize := by
  have hfne := filter_ne_eq_split tags
  have hnonlen : (nonEqIdx tags).length =
      (tags.filter (fun t => decide (¬ t = Ineq.eq))).length :=
    idxWhere_length _ tags 0
  have heqlen : (idxWhere (fun t => decide (t = Ineq.eq)) tags 0).length =
      (tags.filter (fun t => decide (t = Ineq.eq))).length :=
    idxWhere_length _ tags 0
  have hpart := filter_eq_add_ne tags
  have hc0 : (if maximize then c.map (fun x => -x) else c).length = c.length := by
    cases maximize <;> simp
  have hc1 : (convert_to_standard_form c A b tags maximize).1 =
      (if maximize then c.map (fun x => -x) else c) ++
        (tags.filter (fun t => decide (¬ t = Ineq.eq))).map (fun _ => (0 : ℚ)) := rfl
  unfold convertSpecClaim
  dsimp only []
  refine ⟨rfl, ?_, ?_, convert_rows_len c A b tags maximize hm, ?_, ?_, ?_, ?_, ?_, ?_⟩
  · rw [hc1, List.length_append, List.length_map, hc0, hfne]
  · rw [show (convert_to_standard_form c A b tags maximize).2.1.ncols =
      (if maximize then c.map (fun x => -x) else c).length + tags.length -
        (idxWhere (fun t => decide (t = Ineq.eq)) tags 0).length from rfl,
      hc0, heqlen]
    omega
  · intro r hr
    rw [convert_rows c A b tags maximize hm hrow r hr, List.length_append,
      List.length_map, hnonlen, hfne, hrow _ (gdr_mem A r hr)]
  · intro j hj
    rw [hc1, gd_append, if_pos (by omega)]
    cases maximize
    · simp
    · simp [gd_mapNeg]
  · intro r hr j hj
    rw [gdd, convert_rows c A b tags maximize hm hrow r hr, gd_append,
      if_pos (by rw [hrow _ (gdr_mem A r hr)]; exact hj)]
    rfl
  · intro q hq
    rw [hc1, gd_append, if_neg (by omega),
      show c.length + q -
        (if maximize then c.map (fun x => -x) else c).length = q from by omega,
      gd_map_const0]
  · intro q hq r hr
    have hAr : (gdr A r).length = c.length := hrow _ (gdr_mem A r hr)
    have hqn : q < (nonEqIdx tags).length := by omega
    rw [gdd, convert_rows c A b tags maximize hm hrow r hr, gd_append,
      if_neg (by omega),
      show c.length + q - (gdr A r).length = q from by omega, gd,
      getD_map_gen _ _ q 0 0 hqn]
    rfl
  · intro q hq
    have hqn : q < (nonEqIdx tags).length := by omega
    exact (mem_nonEqIdx tags _).mp (gnat_mem _ q hqn)

/-- Witness for C8 at a concrete mixed input: `c = [1, 2]`,
`A = [[1, 0], [0, 1], [1, 1]]`, `b = [1, 2, 3]`, tags `≤`, `≥`, `=`,
maximization. -/
theorem claim8_convert_spec_witness :
    convertSpecClaim [1, 2] [[1, 0], [0, 1], [1, 1]] [1, 2, 3]
      [Ineq.le, Ineq.ge, Ineq.eq] true :=
  claim8_convert_spec [1, 2] [[1, 0], [0, 1], [1, 1]] [1, 2, 3]
    [Ineq.le, Ineq.ge, Ineq.eq] true (by decide) (by decide)
